import Mathlib

/-!
Shallow embedding of the TestRail input/output utility (`index.js`):
the text-to-row parser (`trRowFor`), the row-to-text serializer (`testFor`),
the section-path codec (`pathToTrSection`, `safePath`) and the field
registry (`trFields`, `persistedTrFields`).  JavaScript strings are
modelled over their ASCII fragment; JS objects (string-keyed maps with
insertion order and `Object.assign` override semantics) are modelled as
association lists.
-/

/-- JS whitespace class from the regex escape (ASCII fragment). -/
def jsWs (c : Char) : Bool :=
  c == ' ' || c == '\t' || c == '\n' || c == '\r' || c == '\x0b' || c == '\x0c'

/-- Lower-casing of one character, as performed by a case-insensitive
regex flag (ASCII fragment). -/
def lowerChar (c : Char) : Char :=
  if 'A' ≤ c ∧ c ≤ 'Z' then Char.ofNat (c.toNat + 32) else c

/-- Drop at most one leading whitespace character.  This is the
deterministic equivalent of a greedy optional whitespace item in the
field regexes, because each following literal starts with a
non-whitespace character. -/
def dropOneWs (l : List Char) : List Char :=
  match l with
  | [] => []
  | c :: cs => if jsWs c then cs else c :: cs

/-- Case-insensitively strip the literal field name from the front of the
line; return the rest on success. -/
def stripCI : List Char → List Char → Option (List Char)
  | [], rest => some rest
  | _ :: _, [] => none
  | p :: ps, c :: cs => if lowerChar c = lowerChar p then stripCI ps cs else none

/-- One field regex from the source: an anchored pattern of one optional
whitespace, the field name (case-insensitive), one optional whitespace, a
colon, one optional whitespace, then a captured remainder.  Returns the
capture group. -/
def matchField (name : List Char) (line : List Char) : Option (List Char) :=
  match stripCI name (dropOneWs line) with
  | none => none
  | some r1 =>
    match dropOneWs r1 with
    | [] => none
    | c :: r2 => if c = ':' then some (dropOneWs r2) else none

/-- The ordered TestRail field registry (`trFields` in the source). -/
def trFields : List String :=
  ["ID", "Title", "Created By", "Created On", "Expected Result", "Milestone",
   "Priority", "References", "Section", "Section Depth", "Section Description",
   "Section Hierarchy", "Steps", "Suite", "Suite ID", "Type", "Updated By",
   "Updated On"]

/-- The inner regex loop of the parser: try each field regex in registry
order and return the first field that matches, with its capture.  (When a
regex matches, the JS guard on the match length is always true since each
pattern has one capture group.) -/
def findMatch : List String → List Char → Option (String × String)
  | [], _ => none
  | f :: fs, l =>
    match matchField f.data l with
    | some cap => some (f, String.mk cap)
    | none => findMatch fs l

/-- A JS object restricted to string values: an association list in key
insertion order. -/
abbrev Obj := List (String × String)

/-- Property read on a JS object: first (i.e. unique) binding of the key. -/
def objGet : Obj → String → Option String
  | [], _ => none
  | (k', v') :: rest, k => if k' = k then some v' else objGet rest k

/-- Property write on a JS object: replace in place when the key exists,
otherwise append (JS key insertion order). -/
def objSet : Obj → String → String → Obj
  | [], k, v => [(k, v)]
  | (k', v') :: rest, k, v =>
    if k' = k then (k', v) :: rest else (k', v') :: objSet rest k v

/-- The JS `in` operator. -/
def objHas (o : Obj) (k : String) : Bool :=
  (objGet o k).isSome

/-- One step of `Object.assign`: copy every binding of the source into
the target, in source order. -/
def jsAssign (o : Obj) : Obj → Obj
  | [] => o
  | (k, v) :: rest => jsAssign (objSet o k v) rest

/-- The line mode of the parser state machine.  The source stores a third
transient value for a field-annotation line, but it is reverted to the
previous mode at the end of the same iteration, so across iterations the
mode is always one of these two. -/
inductive LineType where
  | step
  | result
deriving DecidableEq, Repr

/-- The mutable state of the parsing loop in `trRowFor`. -/
structure ParseState where
  lineType : LineType
  stepLines : List String
  resultLines : List String
  contentFields : Obj
deriving DecidableEq, Repr

/-- The parser state at the top of the loop (`lineType = "step"`, all
accumulators empty). -/
def initState : ParseState :=
  ⟨LineType.step, [], [], []⟩

/-- One iteration of the parsing loop of `trRowFor`: match the line
against the field regexes in order; the Expected Result field switches to
result mode and keeps its capture as a result line, the Steps field
switches to step mode and keeps its capture as a step line, any other
matched field stores its capture in the content-field object and leaves
the mode unchanged (the source sets the transient field mode and reverts
it in the same iteration, pushing the line nowhere); an unmatched line is
pushed to the list selected by the current mode. -/
def processLine (st : ParseState) (line : String) : ParseState :=
  match findMatch trFields line.data with
  | some (f, cap) =>
    if f = "Expected Result" then
      { st with lineType := LineType.result, resultLines := st.resultLines ++ [cap] }
    else if f = "Steps" then
      { st with lineType := LineType.step, stepLines := st.stepLines ++ [cap] }
    else
      { st with contentFields := objSet st.contentFields f cap }
  | none =>
    match st.lineType with
    | LineType.step => { st with stepLines := st.stepLines ++ [line] }
    | LineType.result => { st with resultLines := st.resultLines ++ [line] }

/-- The whole parsing loop over a list of lines. -/
def processLines (st : ParseState) (lines : List String) : ParseState :=
  lines.foldl processLine st

/-- Prepend a character to the first piece of a split. -/
def consHead (c : Char) : List (List Char) → List (List Char)
  | [] => [[c]]
  | s :: ss => (c :: s) :: ss

/-- JS `String.prototype.split` with a one-character separator. -/
def splitOnChar (sep : Char) : List Char → List (List Char)
  | [] => [[]]
  | c :: r => if c = sep then [] :: splitOnChar sep r else consHead c (splitOnChar sep r)

/-- JS `Array.prototype.join` with the given separator. -/
def joinWith (sep : List Char) : List (List Char) → List Char
  | [] => []
  | [x] => x
  | x :: y :: ys => x ++ sep ++ joinWith sep (y :: ys)

/-- `content.split(newline)` from the source. -/
def jsSplitLines (s : String) : List String :=
  (splitOnChar '\n' s.data).map String.mk

/-- `lines.join(newline)` from the source. -/
def jsJoinNl (ls : List String) : String :=
  String.mk (joinWith ['\n'] (ls.map String.data))

/-- JS `String.prototype.trim` on the modelled whitespace class. -/
def trimWsL (l : List Char) : List Char :=
  ((l.dropWhile (jsWs ·)).reverse.dropWhile (jsWs ·)).reverse

/-- JS trim, string level. -/
def jsTrim (s : String) : String :=
  String.mk (trimWsL s.data)

/-- Run the parsing loop of `trRowFor` on a file content string. -/
def parseContent (content : String) : ParseState :=
  processLines initState (jsSplitLines content)

/-- Modelled from Node `path.posix.basename` (no extension argument):
ignore trailing separators, then take the part after the last separator. -/
def pathBasename (p : String) : String :=
  String.mk (((p.data.reverse.dropWhile (· = '/')).takeWhile (· ≠ '/')).reverse)

/-- Modelled from Node `path.posix.dirname`. -/
def pathDirname (p : String) : String :=
  let l := p.data
  if l = [] then "." else
  let hasRoot := l.head? = some '/'
  let r2 := (l.reverse.dropWhile (· = '/')).dropWhile (· ≠ '/')
  if r2.length ≤ 1 then (if hasRoot then "/" else ".")
  else if hasRoot ∧ r2.length = 2 then "//"
  else String.mk (l.take (r2.length - 1))

/-- `pathToTrSection` from the source: strip a root separator of an
absolute path, take the parent directory, and join its segments with the
TestRail hierarchy separator. -/
def pathToTrSection (testFile : String) : String :=
  let l := testFile.data
  let l := if l.head? = some '/' then l.drop 1 else l
  let d := pathDirname (String.mk l)
  if d = "." then ""
  else String.mk (joinWith [' ', '>', ' '] (splitOnChar '/' d.data))

/-- Modelled from Node `path.posix.normalize`: the segment stack.  A dot
or empty segment is dropped; a dot-dot segment pops the stack when the
path is relative and the stack does not end in dot-dot, else it is kept
for a relative path and dropped for an absolute one. -/
def normSegs (allowAbove : Bool) (segs : List (List Char)) : List (List Char) :=
  segs.foldl
    (fun stack seg =>
      if seg = [] ∨ seg = ['.'] then stack
      else if seg = ['.', '.'] then
        if allowAbove then
          match stack.getLast? with
          | some last => if last = ['.', '.'] then stack ++ [seg] else stack.dropLast
          | none => stack ++ [seg]
        else stack.dropLast
      else stack ++ [seg]) []

/-- Modelled from Node `path.posix.normalize`. -/
def pathNormalize (p : String) : String :=
  let l := p.data
  let isAbs := l.head? == some '/'
  let trail := l.getLast? == some '/'
  let segs := normSegs (!isAbs) (splitOnChar '/' l)
  let base := joinWith ['/'] segs
  if segs = [] then (if isAbs then "/" else if trail then "./" else ".")
  else
    let r := if trail then base ++ ['/'] else base
    String.mk (if isAbs then '/' :: r else r)

/-- Modelled from Node `path.posix.join` of two parts: drop empty parts,
join with the separator, normalize; a fully empty join is the current
directory. -/
def pathJoin (a b : String) : String :=
  let parts := [a, b].filter (fun s => s != "")
  if parts = [] then "." else
  pathNormalize (String.mk (joinWith ['/'] (parts.map String.data)))

/-- The separator replacement of `safePath`: a backslash or slash becomes
an underscore. -/
def replaceSepChar (c : Char) : Char :=
  if c = '\\' ∨ c = '/' then '_' else c

/-- `s.replace` of every separator character by an underscore. -/
def replaceSeps (s : String) : String :=
  String.mk (s.data.map replaceSepChar)

/-- `s.replace` of every TestRail hierarchy separator by the path
separator, scanning left to right without overlap as JS global replace
does. -/
def replaceGtWithSep : List Char → List Char
  | ' ' :: '>' :: ' ' :: rest => '/' :: replaceGtWithSep rest
  | c :: rest => c :: replaceGtWithSep rest
  | [] => []

/-- The final whitelist pass of `safePath`: any character that is not
alphanumeric and not a path separator becomes an underscore. -/
def whitelistChar (c : Char) : Char :=
  if ('A' ≤ c ∧ c ≤ 'Z') ∨ ('a' ≤ c ∧ c ≤ 'z') ∨ ('0' ≤ c ∧ c ≤ '9')
      ∨ c = '\\' ∨ c = '/' then c else '_'

/-- `safePath` from the source: neutralize separator characters in the
section text, expand the hierarchy separator into path separators, cap
the title at 200 characters, join, and whitelist. -/
def safePath (sectionPath title : String) : String :=
  let sp := String.mk (replaceGtWithSep (replaceSeps sectionPath).data)
  let t := String.mk ((replaceSeps title).data.take 200)
  let fullPath := pathJoin sp t
  String.mk (fullPath.data.map whitelistChar)

/-- The test file suffix. -/
def testFileSuffix : String := ".test.txt"

/-- `basename.replace` of the anchored test-file-suffix regex by the
empty string: strip the suffix when present. -/
def stripTestSuffix (s : String) : String :=
  if s.data.reverse.take 9 = testFileSuffix.data.reverse
  then String.mk (s.data.take (s.data.length - 9)) else s

/-- The subset of fields persisted into serialized text (`persistedTrFields`). -/
def persistedTrFields : List String :=
  ["ID", "Created By", "Created On", "Milestone", "Priority", "References",
   "Suite", "Suite ID", "Type"]

/-- JS truthiness of a possibly-undefined string value. -/
def truthy : Option String → Bool
  | none => false
  | some s => s != ""

/-- JS coercion of a possibly-undefined string to a string, as it happens
when it is concatenated into the content. -/
def jsStr : Option String → String
  | none => "undefined"
  | some s => s

/-- `replace` of every run of spaces and tabs by a single space
(the horizontal-whitespace collapsing in `testFor`), with a flag telling
whether the previous character was in a run. -/
def collapseWsAux : Bool → List Char → List Char
  | _, [] => []
  | prevSp, c :: cs =>
    if c = ' ' ∨ c = '\t' then
      (if prevSp then collapseWsAux true cs else ' ' :: collapseWsAux true cs)
    else c :: collapseWsAux false cs

/-- Horizontal-whitespace collapsing, string level. -/
def collapseWs (s : String) : String :=
  String.mk (collapseWsAux false s.data)

/-- The section path used by `testFor`: the Section Hierarchy column when
present and truthy, else the Section column; an undefined result makes
the later property access throw. -/
def resolveSection (trRow : Obj) : Option String :=
  if objHas trRow "Section Hierarchy" && truthy (objGet trRow "Section Hierarchy")
  then objGet trRow "Section Hierarchy" else objGet trRow "Section"

/-- The persisted-field lines appended by `testFor`: one line per
persisted field whose value is neither null nor undefined, in registry
order. -/
def fieldLines (trRow : Obj) : List String :=
  persistedTrFields.filterMap (fun f => (objGet trRow f).map (fun v => f ++ ": " ++ v))

/-- `testFor` from the source.  Returns the file path and content, or
none when the JS code throws (a property access on an undefined section
path or title). -/
def testFor (trRow : Obj) : Option (String × String) :=
  match resolveSection trRow, objGet trRow "Title" with
  | some sectionPath, some title =>
    let steps := objGet trRow "Steps"
    let steps := if truthy steps then steps.map collapseWs else steps
    let results := objGet trRow "Expected Result"
    let results := if truthy results then results.map collapseWs else results
    let content := jsStr steps ++ "\n\n" ++
      (if truthy results then "Expected Result:\n" ++ jsStr results ++ "\n\n" else "")
    some (safePath sectionPath title ++ testFileSuffix,
          content ++ jsJoinNl (fieldLines trRow))
  | _, _ => none

/-- One git log entry, restricted to the fields the program reads. -/
structure GitLog where
  author_name : String
  author_email : String
  date : String
deriving DecidableEq, Repr

/-- The tuple produced by `readTestFile`: path relative to the test root,
file content, and the creation and modification log entries (absent when
the directory is not a git repository). -/
structure ReadTestFile where
  testFile : String
  content : String
  createLog : Option GitLog
  modifiedLog : Option GitLog
deriving DecidableEq, Repr

/-- Modelled JSON serialization of a log entry as used by the git footer,
restricted to the fields carried by the GitLog model (escaping inside
values is not modelled; no claim depends on this text). -/
def jsonOfLog (m : GitLog) : String :=
  "\x7b\n  \"author_name\": \"" ++ m.author_name ++
  "\",\n  \"author_email\": \"" ++ m.author_email ++
  "\",\n  \"date\": \"" ++ m.date ++ "\"\n\x7d"

/-- `trRowFor` from the source: title from the file name with the suffix
stripped, the parsing loop over the content lines, joined and trimmed
steps and results, the Section value from the directory hierarchy, the
optional git footer, then the row assembled by assigning the git fields
and the content fields over the base fields. -/
def trRowFor (rtf : ReadTestFile) (addGitFooter : Bool) : Obj :=
  let title := stripTestSuffix (pathBasename rtf.testFile)
  let st := parseContent rtf.content
  let steps := jsTrim (jsJoinNl st.stepLines)
  let results := jsTrim (jsJoinNl st.resultLines)
  let hierarchy := pathToTrSection rtf.testFile
  let steps :=
    match rtf.createLog, rtf.modifiedLog with
    | some _, some m =>
      if addGitFooter then steps ++ "\n\nLatest Update:\n" ++ jsonOfLog m else steps
    | _, _ => steps
  let row : Obj := [("Title", title), ("Steps", steps), ("Section", hierarchy),
                    ("Expected Result", results)]
  let gitInfo : Obj :=
    match rtf.createLog, rtf.modifiedLog with
    | some c, some m =>
      [("Created By", c.author_name ++ " (" ++ c.author_email ++ ")"),
       ("Created On", c.date),
       ("Updated By", m.author_name ++ " (" ++ m.author_email ++ ")"),
       ("Updated On", m.date)]
    | _, _ => []
  jsAssign (jsAssign row gitInfo) st.contentFields

/-- The character set the specification allows in sanitized paths:
alphanumerics, the underscore, and the path separators. -/
def allowedChar (c : Char) : Prop :=
  ('A' ≤ c ∧ c ≤ 'Z') ∨ ('a' ≤ c ∧ c ≤ 'z') ∨ ('0' ≤ c ∧ c ≤ '9')
    ∨ c = '_' ∨ c = '/' ∨ c = '\\'

/-- The four row fields that `trRowFor` derives from git metadata. -/
def gitInfoFields : List String :=
  ["Created By", "Created On", "Updated By", "Updated On"]

/-- What one line contributes to the result accumulator while the parser
is in result mode: an unmatched line contributes itself, a renewed
Expected Result marker contributes its capture, a plain field annotation
contributes nothing. -/
def resultContrib (l : String) : List String :=
  match findMatch trFields l.data with
  | none => [l]
  | some (f, v) => if f = "Expected Result" then [v] else []

/-- Outcome of running the case-insensitive name stripper against a
finite prefix of the input: a definite mismatch, the name outlasting the
prefix, or the name fully consumed with the given remainder of the
prefix.  Proof infrastructure for reasoning about a regex applied to a
concrete prefix followed by arbitrary text. -/
inductive StripRes where
  | mismatch
  | leftover (gRest : List Char)
  | done (rest : List Char)
deriving DecidableEq, Repr

/-- Three-valued variant of the name stripper used to analyse a match
against a prefix of the line. -/
def stripCIX : List Char → List Char → StripRes
  | [], rest => StripRes.done rest
  | g, [] => StripRes.leftover g
  | p :: ps, c :: cs =>
    if lowerChar c = lowerChar p then stripCIX ps cs else StripRes.mismatch

/-- Decidable check that the regex of a field name rejects every line
that starts with the given prefix, whatever follows the prefix. -/
def mfRejectsPre (g : List Char) (pre : List Char) : Bool :=
  match pre with
  | [] => false
  | c :: cs =>
    let pre1 := if jsWs c then cs else c :: cs
    match stripCIX g pre1 with
    | StripRes.mismatch => true
    | StripRes.leftover _ => false
    | StripRes.done r1 =>
      match r1 with
      | [] => false
      | d :: ds =>
        match (if jsWs d then ds else d :: ds) with
        | [] => false
        | e :: _ => !(e == ':')

/-- A character that survives every sanitization pass of `safePath`
unchanged: an alphanumeric or an underscore. -/
def safeTitleChar (c : Char) : Prop :=
  ('A' ≤ c ∧ c ≤ 'Z') ∨ ('a' ≤ c ∧ c ≤ 'z') ∨ ('0' ≤ c ∧ c ≤ '9') ∨ c = '_'

instance (c : Char) : Decidable (safeTitleChar c) := by
  unfold safeTitleChar
  infer_instance

/-- The restriction of a row to the persisted-field subset, in registry
order: the pairs a round trip through serialized text is meant to keep. -/
def persistedOf (trRow : Obj) : Obj :=
  persistedTrFields.filterMap (fun f => (objGet trRow f).map (fun v => (f, v)))

/-! ### Basic helper lemmas -/

theorem stringDataAppend (s t : String) : (s ++ t).data = s.data ++ t.data := by
  cases s; cases t; rfl

theorem stringMkData (s : String) : String.mk s.data = s := by
  cases s; rfl

theorem stringDataInj {s t : String} (h : s.data = t.data) : s = t := by
  cases s; cases t; exact congrArg String.mk h

theorem objGet_objSet_self (o : Obj) (k v : String) :
    objGet (objSet o k v) k = some v := by
  induction o with
  | nil => simp [objSet, objGet]
  | cons p rest ih =>
    obtain ⟨k', v'⟩ := p
    by_cases hk : k' = k
    · subst hk; simp [objSet, objGet]
    · simp [objSet, objGet, hk, ih]

theorem objGet_objSet_ne (o : Obj) (k v k' : String) (h : k' ≠ k) :
    objGet (objSet o k v) k' = objGet o k' := by
  induction o with
  | nil => simp [objSet, objGet, Ne.symm h]
  | cons p rest ih =>
    obtain ⟨k1, v1⟩ := p
    by_cases hk : k1 = k
    · subst hk; simp [objSet, objGet, Ne.symm h]
    · by_cases hk' : k1 = k'
      · subst hk'; simp [objSet, objGet, hk]
      · simp [objSet, objGet, hk, hk', ih]

theorem objGet_none_of_forall (o : Obj) (k : String) (h : ∀ p ∈ o, p.1 ≠ k) :
    objGet o k = none := by
  induction o with
  | nil => rfl
  | cons p rest ih =>
    obtain ⟨k1, v1⟩ := p
    have h1 : k1 ≠ k := h (k1, v1) (by simp)
    simp [objGet, h1]
    exact ih (fun q hq => h q (by simp [hq]))

theorem objGet_jsAssign_none (o src : Obj) (k : String) (h : objGet src k = none) :
    objGet (jsAssign o src) k = objGet o k := by
  induction src generalizing o with
  | nil => rfl
  | cons p rest ih =>
    obtain ⟨k1, v1⟩ := p
    have h1 : k1 ≠ k := by
      intro e; subst e; simp [objGet] at h
    have h2 : objGet rest k = none := by
      simpa [objGet, h1] using h
    show objGet (jsAssign (objSet o k1 v1) rest) k = objGet o k
    rw [ih _ h2, objGet_objSet_ne _ _ _ _ (Ne.symm h1)]

theorem objGet_jsAssign_some (o src : Obj) (k v : String)
    (hu : src.Pairwise (fun a b => a.1 ≠ b.1)) (h : objGet src k = some v) :
    objGet (jsAssign o src) k = some v := by
  induction src generalizing o with
  | nil => simp [objGet] at h
  | cons p rest ih =>
    obtain ⟨k1, v1⟩ := p
    rw [List.pairwise_cons] at hu
    by_cases hk : k1 = k
    · subst hk
      have hv : v1 = v := by simpa [objGet] using h
      subst hv
      have hnone : objGet rest k1 = none :=
        objGet_none_of_forall _ _ (fun q hq => Ne.symm (hu.1 q hq))
      show objGet (jsAssign (objSet o k1 v1) rest) k1 = some v1
      rw [objGet_jsAssign_none _ _ _ hnone, objGet_objSet_self]
    · have h2 : objGet rest k = some v := by simpa [objGet, hk] using h
      exact ih (objSet o k1 v1) hu.2 h2

theorem mem_objSet (o : Obj) (k v : String) :
    ∀ p ∈ objSet o k v, p.1 = k ∨ ∃ q ∈ o, p.1 = q.1 := by
  induction o with
  | nil => intro p hp; simp [objSet] at hp; simp [hp]
  | cons q rest ih =>
    obtain ⟨k1, v1⟩ := q
    intro p hp
    by_cases hk : k1 = k
    · subst hk
      simp [objSet] at hp
      rcases hp with hp | hp
      · simp [hp]
      · exact Or.inr ⟨p, by simp [hp], rfl⟩
    · simp [objSet, hk] at hp
      rcases hp with hp | hp
      · exact Or.inr ⟨(k1, v1), by simp, by simp [hp]⟩
      · rcases ih p hp with h | ⟨q, hq, he⟩
        · exact Or.inl h
        · exact Or.inr ⟨q, by simp [hq], he⟩

theorem objSet_pairwise (o : Obj) (k v : String)
    (h : o.Pairwise (fun a b => a.1 ≠ b.1)) :
    (objSet o k v).Pairwise (fun a b => a.1 ≠ b.1) := by
  induction o with
  | nil => simp [objSet]
  | cons q rest ih =>
    obtain ⟨k1, v1⟩ := q
    rw [List.pairwise_cons] at h
    by_cases hk : k1 = k
    · subst hk
      simp only [objSet, if_pos rfl]
      exact List.pairwise_cons.mpr ⟨h.1, h.2⟩
    · simp only [objSet, if_neg hk]
      refine List.pairwise_cons.mpr ⟨?_, ih h.2⟩
      intro p hp
      rcases mem_objSet rest k v p hp with he | ⟨q, hq, he⟩
      · simpa [he] using hk
      · rw [he]; exact h.1 q hq

theorem processLine_pairwise (st : ParseState) (line : String)
    (h : st.contentFields.Pairwise (fun a b => a.1 ≠ b.1)) :
    (processLine st line).contentFields.Pairwise (fun a b => a.1 ≠ b.1) := by
  unfold processLine
  cases findMatch trFields line.data with
  | none => cases st.lineType <;> simpa using h
  | some p =>
    obtain ⟨f, cap⟩ := p
    by_cases h1 : f = "Expected Result"
    · simpa [h1] using h
    · by_cases h2 : f = "Steps"
      · simpa [h1, h2] using h
      · simpa [h1, h2] using objSet_pairwise _ _ _ h

theorem processLines_pairwise (lines : List String) (st : ParseState)
    (h : st.contentFields.Pairwise (fun a b => a.1 ≠ b.1)) :
    (processLines st lines).contentFields.Pairwise (fun a b => a.1 ≠ b.1) := by
  induction lines generalizing st with
  | nil => simpa [processLines]
  | cons l rest ih =>
    exact ih (processLine st l) (processLine_pairwise st l h)

theorem parseContent_pairwise (c : String) :
    (parseContent c).contentFields.Pairwise (fun a b => a.1 ≠ b.1) := by
  unfold parseContent
  exact processLines_pairwise _ _ (by simp [initState])

/-! ### C5: a plain field annotation line is consumed and the mode is preserved -/

/-- C5: a line whose first regex match is a recognized field other than
Steps and Expected Result is consumed: the step and result accumulators
and the line mode are unchanged (so subsequent unmatched lines are
classified exactly as before the annotation line), and the captured value
is recorded in the content-field map. -/
theorem fieldLine_consumed (st : ParseState) (line f v : String)
    (h : findMatch trFields line.data = some (f, v))
    (hf : f ≠ "Steps") (hfe : f ≠ "Expected Result") :
    processLine st line =
      { st with contentFields := objSet st.contentFields f v } := by
  unfold processLine
  rw [h]
  simp [hf, hfe]

/-- Witness for C5 on the concrete annotation of the specification: a
Priority annotation inside a steps block is removed from the steps,
recorded in the field map, and the mode stays step. -/
theorem fieldLine_consumed_witness :
    processLine ⟨LineType.step, ["S1"], [], []⟩ "Priority: High" =
      ⟨LineType.step, ["S1"], [], [("Priority", "High")]⟩ := by
  have h := fieldLine_consumed ⟨LineType.step, ["S1"], [], []⟩ "Priority: High"
    "Priority" "High" (by decide) (by decide) (by decide)
  exact h.trans (by decide)

/-! ### C2: the section fields actually produced by the parser -/

/-- C2 (divergence witness): for a file at the relative path a/b/name
with the test suffix, the row maps the Section key to the full hierarchy
string, and has no Section Hierarchy and no Section Depth keys at all;
for a file at the root the Section value is empty.  The claim (and the
repository's own unit tests) expect Section to be the immediate parent
directory name with separate hierarchy and depth fields. -/
theorem sectionFields_at_failing_input :
    objGet (trRowFor ⟨"a/b/name.test.txt", "STEP", none, none⟩ false) "Section"
      = some "a > b" ∧
    objGet (trRowFor ⟨"a/b/name.test.txt", "STEP", none, none⟩ false)
      "Section Hierarchy" = none ∧
    objGet (trRowFor ⟨"a/b/name.test.txt", "STEP", none, none⟩ false)
      "Section Depth" = none ∧
    some "a > b" ≠ some "b" ∧
    objGet (trRowFor ⟨"name.test.txt", "STEP", none, none⟩ false) "Section"
      = some "" := by
  decide

/-! ### C10: content field annotations are assigned last and win -/

/-- C10: any key that the content parser records in the content-field map
ends up in the exported row with the parsed value, overriding the
git-derived fields and the base derived fields of the same name, because
the content fields are assigned last. -/
theorem contentFields_override (rtf : ReadTestFile) (footer : Bool) (k v : String)
    (h : objGet (parseContent rtf.content).contentFields k = some v) :
    objGet (trRowFor rtf footer) k = some v := by
  unfold trRowFor
  exact objGet_jsAssign_some _ _ _ _ (parseContent_pairwise _) h

/-- Witness for C10: a Created By annotation in the content overrides the
git-derived Created By value. -/
theorem contentFields_override_witness :
    objGet (trRowFor ⟨"x.test.txt", "Created By: X",
      some ⟨"A", "a@b", "2020"⟩, some ⟨"B", "b@c", "2021"⟩⟩ true) "Created By"
      = some "X" := by
  exact contentFields_override _ _ _ _ (by decide)

/-! ### C4: where the title comes from -/

/-- C4 (counterexample): a Title field annotation in the file content
overrides the filename-derived title, because the content fields are
assigned last; the claim that the title is never taken from an inline
annotation is false on the code (and the repository's unit tests assert
this override: the sample file basic.test.txt is expected to export with
title TITLE, not basic). -/
theorem title_overridden_by_content :
    objGet (trRowFor ⟨"basic.test.txt", "Title: TITLE", none, none⟩ false) "Title"
      = some "TITLE" ∧
    stripTestSuffix (pathBasename "basic.test.txt") = "basic" ∧
    some "TITLE" ≠ some "basic" := by
  decide

/-- C4 (amended): when the content contains no line recorded as a Title
annotation, the row's title is the file's base name with the test-file
suffix stripped. -/
theorem title_from_filename (rtf : ReadTestFile) (footer : Bool)
    (h : objGet (parseContent rtf.content).contentFields "Title" = none) :
    objGet (trRowFor rtf footer) "Title" =
      some (stripTestSuffix (pathBasename rtf.testFile)) := by
  obtain ⟨tf, content, cl, ml⟩ := rtf
  unfold trRowFor
  rw [objGet_jsAssign_none _ _ _ h]
  cases cl with
  | none =>
    cases ml with
    | none => simp [objGet]
    | some m => simp [objGet]
  | some c =>
    cases ml with
    | none => simp [objGet]
    | some m => simp [jsAssign, objGet, objSet]

/-- Witness for the amended C4. -/
theorem title_from_filename_witness :
    objGet (trRowFor ⟨"a/basic.test.txt", "hello\nworld", none, none⟩ false) "Title"
      = some "basic" := by
  have h := title_from_filename ⟨"a/basic.test.txt", "hello\nworld", none, none⟩
    false (by decide)
  exact h.trans (by decide)

/-! ### C9: git fields on a non-version-controlled file -/

/-- C9 (counterexample): a file in a non-version-controlled directory
whose content carries a Created By annotation still exports with a
Created By key, so the git-derived field names are not unconditionally
absent from the row. -/
theorem gitField_key_from_content :
    objGet (trRowFor ⟨"t.test.txt", "Created By: Bob", none, none⟩ false)
      "Created By" = some "Bob" := by
  decide

/-- C9 (amended): when both git logs are absent and the content carries
no annotation for any of the four git-derived field names, those keys are
entirely absent from the exported row (and parsing is total: the row is
still produced, with its title present). -/
theorem gitFields_absent (tf content : String) (footer : Bool)
    (h : ∀ f ∈ gitInfoFields,
      objGet (parseContent content).contentFields f = none) :
    ∀ f ∈ gitInfoFields,
      objGet (trRowFor ⟨tf, content, none, none⟩ footer) f = none := by
  intro f hf
  unfold trRowFor
  rw [objGet_jsAssign_none _ _ _ (h f hf)]
  fin_cases hf <;> simp [jsAssign, objGet]

/-- Witness for the amended C9. -/
theorem gitFields_absent_witness :
    objGet (trRowFor ⟨"t.test.txt", "hello", none, none⟩ false) "Created By"
      = none := by
  exact gitFields_absent "t.test.txt" "hello" false (by decide) "Created By"
    (by decide)

/-! ### C3: monotonicity of the result mode -/

/-- C3 (counterexample): after the Expected Result marker on the first
line, the line matching the Steps field pattern reverts the parser to
step mode, and the following line, which matches no field pattern at all
and is recorded in no field map, is classified as a step line; so it is
not the case that every post-marker line other than a field-annotation
line goes to the result text. -/
theorem steps_after_result_marker :
    (parseContent "Expected Result:\nR1\nSteps: S1\nS3").stepLines = ["S1", "S3"] ∧
    (parseContent "Expected Result:\nR1\nSteps: S1\nS3").resultLines = ["", "R1"] ∧
    (parseContent "Expected Result:\nR1\nSteps: S1\nS3").contentFields = [] ∧
    findMatch trFields "S3".data = none := by
  decide

/-- C3 (amended): once the parser is in result mode, it stays there and
classifies no line as a step line as long as no line matching the Steps
field pattern occurs: every following line that is either unmatched or
matched by a field other than Steps leaves the step accumulator
untouched, and the result accumulator receives exactly the unmatched
lines and the captures of renewed Expected Result markers. -/
theorem result_mode_monotone (st : ParseState) (post : List String)
    (hst : st.lineType = LineType.result)
    (hpost : ∀ l ∈ post, findMatch trFields l.data = none ∨
      ∃ f v, findMatch trFields l.data = some (f, v) ∧ f ≠ "Steps") :
    (processLines st post).lineType = LineType.result ∧
    (processLines st post).stepLines = st.stepLines ∧
    (processLines st post).resultLines =
      st.resultLines ++ (post.map resultContrib).flatten := by
  induction post generalizing st with
  | nil => simpa [processLines] using hst
  | cons l rest ih =>
    have hl := hpost l (List.mem_cons_self l rest)
    have hrest := fun x hx => hpost x (List.mem_cons_of_mem l hx)
    have hstep : processLines st (l :: rest) = processLines (processLine st l) rest := rfl
    rcases hl with hnone | ⟨f, v, hm, hf⟩
    · have key : processLine st l = { st with resultLines := st.resultLines ++ [l] } := by
        simp [processLine, hnone, hst]
      have hc : resultContrib l = [l] := by simp [resultContrib, hnone]
      rw [hstep, key]
      have h2 := ih { st with resultLines := st.resultLines ++ [l] } hst hrest
      refine ⟨h2.1, h2.2.1, ?_⟩
      rw [h2.2.2]
      simp [hc]
    · by_cases hfe : f = "Expected Result"
      · have key : processLine st l =
            { st with lineType := LineType.result,
                      resultLines := st.resultLines ++ [v] } := by
          simp [processLine, hm, hfe]
        have hc : resultContrib l = [v] := by simp [resultContrib, hm, hfe]
        rw [hstep, key]
        have h2 := ih
          { st with lineType := LineType.result, resultLines := st.resultLines ++ [v] }
          rfl hrest
        refine ⟨h2.1, h2.2.1, ?_⟩
        rw [h2.2.2]
        simp [hc]
      · have key : processLine st l =
            { st with contentFields := objSet st.contentFields f v } := by
          simp [processLine, hm, hfe, hf]
        have hc : resultContrib l = [] := by simp [resultContrib, hm, hfe]
        rw [hstep, key]
        have h2 := ih { st with contentFields := objSet st.contentFields f v }
          hst hrest
        refine ⟨h2.1, h2.2.1, ?_⟩
        rw [h2.2.2]
        simp [hc]

/-- Witness for the amended C3. -/
theorem result_mode_monotone_witness :
    (processLines ⟨LineType.result, ["a"], ["b"], []⟩ ["X", "Priority: P"]).stepLines
      = ["a"] ∧
    (processLines ⟨LineType.result, ["a"], ["b"], []⟩ ["X", "Priority: P"]).resultLines
      = ["b", "X"] := by
  have h := result_mode_monotone ⟨LineType.result, ["a"], ["b"], []⟩
    ["X", "Priority: P"] rfl ?_
  · exact ⟨h.2.1, h.2.2.trans (by decide)⟩
  · intro l hl
    fin_cases hl
    · exact Or.inl (by decide)
    · exact Or.inr ⟨"Priority", "P", by decide, by decide⟩

/-! ### C6: sanitization of section paths and titles -/

theorem whitelistChar_allowed (c : Char) : allowedChar (whitelistChar c) := by
  unfold whitelistChar allowedChar
  split
  · rename_i h
    rcases h with h | h | h | h | h
    · exact Or.inl h
    · exact Or.inr (Or.inl h)
    · exact Or.inr (Or.inr (Or.inl h))
    · exact Or.inr (Or.inr (Or.inr (Or.inr (Or.inr h))))
    · exact Or.inr (Or.inr (Or.inr (Or.inr (Or.inl h))))
  · exact Or.inr (Or.inr (Or.inr (Or.inl rfl)))

theorem replaceSepChar_idem (c : Char) :
    replaceSepChar (replaceSepChar c) = replaceSepChar c := by
  unfold replaceSepChar
  split
  · simp
  · rename_i h
    simp [h]

/-- C6: path sanitization is deterministic (equal inputs give equal
outputs), every character of the output is an alphanumeric, an
underscore, or a path separator, the title influences the output only
through its separator-replaced first 200 characters, and the concrete
example of the specification evaluates to a fixed sanitized relative
path. -/
theorem safePath_sanitizes (s t : String) :
    (∀ s2 t2, s = s2 → t = t2 → safePath s t = safePath s2 t2) ∧
    (∀ c ∈ (safePath s t).data, allowedChar c) ∧
    safePath s t = safePath s (String.mk ((replaceSeps t).data.take 200)) ∧
    safePath "sectionA > sectionB" "My Test!" = "sectionA/sectionB/My_Test_" := by
  refine ⟨?_, ?_, ?_, by decide⟩
  · intro s2 t2 hs ht
    rw [hs, ht]
  · intro c hc
    unfold safePath at hc
    simp only [List.mem_map] at hc
    obtain ⟨a, _, ha⟩ := hc
    rw [← ha]
    exact whitelistChar_allowed a
  · unfold safePath
    have h1 : replaceSeps (String.mk ((replaceSeps t).data.take 200)) =
        String.mk ((replaceSeps t).data.take 200) := by
      unfold replaceSeps
      apply congrArg String.mk
      rw [← List.map_take, List.map_map]
      have hcomp : replaceSepChar ∘ replaceSepChar = replaceSepChar :=
        funext replaceSepChar_idem
      rw [hcomp]
    rw [h1]
    have h2 : ((String.mk ((replaceSeps t).data.take 200)).data.take 200) =
        (replaceSeps t).data.take 200 := by
      simp [List.take_take]
    rw [h2]

/-- Witness for C6. -/
theorem safePath_sanitizes_witness :
    safePath "x" "y" = safePath "x" "y" ∧ allowedChar 'x' := by
  refine ⟨(safePath_sanitizes "x" "y").1 "x" "y" rfl rfl, ?_⟩
  exact (safePath_sanitizes "x" "y").2.1 'x' (by decide)

/-! ### C8: case-insensitivity and bounded whitespace flexibility -/

/-- C8 (counterexample): two spaces before a recognized field name defeat
every field regex (each allows at most one optional whitespace), so the
line is not recognized as a field annotation and stays a step line. -/
theorem ws_flexibility_bounded :
    ("Priority" ∈ trFields) ∧
    findMatch trFields "  Priority: High".data = none ∧
    (parseContent "  Priority: High").contentFields = [] ∧
    (parseContent "  Priority: High").stepLines = ["  Priority: High"] := by
  decide

theorem stripCI_append (n l : List Char) (h : l.map lowerChar = n.map lowerChar)
    (rest : List Char) : stripCI n (l ++ rest) = some rest := by
  induction n generalizing l with
  | nil =>
    cases l with
    | nil => rfl
    | cons c cs => simp at h
  | cons p ps ih =>
    cases l with
    | nil => simp at h
    | cons c cs =>
      simp only [List.map_cons, List.cons.injEq] at h
      simp [stripCI, h.1, ih cs h.2]

theorem jsWs_lowerChar {c : Char} (h : jsWs c = true) : lowerChar c = c := by
  simp [jsWs] at h
  rcases h with ((((h | h) | h) | h) | h) | h <;> subst h <;> decide

theorem trFields_head_isSome :
    ∀ n ∈ trFields, ((n.data.map lowerChar).head?).isSome = true := by
  decide

theorem trFields_head_nonws :
    ∀ n ∈ trFields,
      ((n.data.map lowerChar).head?.all (fun c => !jsWs c)) = true := by
  decide

theorem findMatch_isSome (fs : List String) (l : List Char) (f : String)
    (hf : f ∈ fs) (h : matchField f.data l ≠ none) :
    (findMatch fs l).isSome = true := by
  induction fs with
  | nil => simp at hf
  | cons g gs ih =>
    cases hm : matchField g.data l with
    | some cap => simp [findMatch, hm]
    | none =>
      simp only [findMatch, hm]
      rcases List.mem_cons.mp hf with he | hm2
      · subst he; exact absurd hm h
      · exact ih hm2

/-- C8 (amended): a field regex matches a line built from any
letter-case variant of its field name with at most one whitespace
character before the name and at most one between the name and the colon
(the text after the colon, less one optional whitespace, is the capture),
and such a line is recognized as a field annotation by the registry scan.
More surrounding whitespace than one character per slot is not accepted
(see the counterexample). -/
theorem fieldName_flex_match (name : String) (hname : name ∈ trFields)
    (caseName w1 w2 v : List Char)
    (hcase : caseName.map lowerChar = name.data.map lowerChar)
    (hw1 : w1 = [] ∨ ∃ c, jsWs c = true ∧ w1 = [c])
    (hw2 : w2 = [] ∨ ∃ c, jsWs c = true ∧ w2 = [c]) :
    matchField name.data (w1 ++ caseName ++ w2 ++ ':' :: v) = some (dropOneWs v) ∧
    (findMatch trFields (w1 ++ caseName ++ w2 ++ ':' :: v)).isSome = true := by
  obtain ⟨c0, rest0, hcn⟩ : ∃ c0 rest0, caseName = c0 :: rest0 := by
    cases hc : caseName with
    | nil =>
      exfalso
      have h1 := trFields_head_isSome name hname
      rw [hc] at hcase
      rw [← hcase] at h1
      simp at h1
    | cons a b => exact ⟨a, b, rfl⟩
  have hnws : jsWs c0 = false := by
    have h2 := trFields_head_nonws name hname
    rw [← hcase, hcn] at h2
    simp only [List.map_cons, List.head?_cons, Option.all_some] at h2
    by_contra hx
    have hx' : jsWs c0 = true := by
      revert hx; cases jsWs c0 <;> simp
    rw [jsWs_lowerChar hx', hx'] at h2
    simp at h2
  have hmatch : matchField name.data (w1 ++ caseName ++ w2 ++ ':' :: v)
      = some (dropOneWs v) := by
    unfold matchField
    have hd1 : dropOneWs (w1 ++ caseName ++ w2 ++ ':' :: v)
        = caseName ++ (w2 ++ ':' :: v) := by
      rcases hw1 with h | ⟨cw, hws, h⟩
      · subst h
        rw [hcn]
        simp [dropOneWs, hnws]
      · subst h
        simp [dropOneWs, hws, List.append_assoc]
    rw [hd1, stripCI_append _ _ hcase _]
    have hcolon : jsWs ':' = false := by decide
    rcases hw2 with h | ⟨cw, hws, h⟩
    · subst h
      simp [dropOneWs, hcolon]
    · subst h
      simp [dropOneWs, hws, hcolon]
  refine ⟨hmatch, findMatch_isSome _ _ name hname ?_⟩
  rw [hmatch]
  simp

/-- Witness for the amended C8: one leading space and an upper-cased
name are accepted, and the first regex whitespace after the colon is not
part of the capture. -/
theorem fieldName_flex_match_witness :
    matchField "Priority".data
      ([' '] ++ "PRIORITY".data ++ [] ++ ':' :: " High".data)
      = some (dropOneWs " High".data) ∧
    (findMatch trFields
      ([' '] ++ "PRIORITY".data ++ [] ++ ':' :: " High".data)).isSome = true := by
  exact fieldName_flex_match "Priority" (by decide) "PRIORITY".data [' '] []
    " High".data (by decide) (Or.inr ⟨' ', by decide, rfl⟩) (Or.inl rfl)

/-! ### C7: serialization of rows with missing columns -/

/-- C7 (counterexample): a row with no columns at all is rejected (the
JS code throws on the undefined section path), and a row missing only the
Steps column serializes the absent field as the literal text undefined,
which does appear in the output. -/
theorem missing_columns_not_best_effort :
    testFor [] = none ∧
    testFor [("Title", "T"), ("Section", "")]
      = some ("T.test.txt", "undefined\n\n") := by
  decide

theorem colon_prefix_inj : ∀ (a b : List Char), ':' ∉ a → ':' ∉ b →
    ∀ x y, a ++ ':' :: x = b ++ ':' :: y → a = b := by
  intro a
  induction a with
  | nil =>
    intro b _ hb x y h
    cases b with
    | nil => rfl
    | cons d bs =>
      exfalso
      injection h with h1 _
      exact hb (h1 ▸ List.mem_cons_self d bs)
  | cons c as ih =>
    intro b ha hb x y h
    cases b with
    | nil =>
      exfalso
      injection h with h1 _
      exact ha (h1 ▸ List.mem_cons_self c as)
    | cons d bs =>
      injection h with h1 h2
      subst h1
      rw [ih bs (fun hm => ha (List.mem_cons_of_mem _ hm))
        (fun hm => hb (List.mem_cons_of_mem _ hm)) x y h2]

theorem fieldLine_data (f v : String) :
    (f ++ ": " ++ v).data = f.data ++ ':' :: (' ' :: v.data) := by
  rw [stringDataAppend, stringDataAppend]
  simp [List.append_assoc]

theorem persisted_colon_free : ∀ f ∈ persistedTrFields, ':' ∉ f.data := by
  decide

theorem collapseWs_ne_empty {s : String} (h : s ≠ "") : collapseWs s ≠ "" := by
  intro he
  apply h
  have hd : collapseWsAux false s.data = [] := congrArg String.data he
  cases hl : s.data with
  | nil => exact stringDataInj (by rw [hl])
  | cons c cs =>
    rw [hl] at hd
    unfold collapseWsAux at hd
    split at hd <;> simp at hd

/-- C7 (amended): for a row that does carry the Title, Steps, and a
section column (the columns whose absence the code does not tolerate:
a missing Title or section throws, a missing Steps leaks the text
undefined), serialization is best-effort in the remaining columns: it
succeeds, a missing Expected Result column simply omits the result block,
and a persisted field absent from the row produces no field line in the
output. -/
theorem testFor_best_effort (row : Obj) (T sec st : String)
    (hT : objGet row "Title" = some T)
    (hsec : resolveSection row = some sec)
    (hst : objGet row "Steps" = some st) :
    testFor row = some (safePath sec T ++ testFileSuffix,
      collapseWs st ++ "\n\n" ++
      (match objGet row "Expected Result" with
       | none => ""
       | some r =>
         if r = "" then "" else "Expected Result:\n" ++ collapseWs r ++ "\n\n") ++
      jsJoinNl (fieldLines row)) ∧
    (∀ f v, f ∈ persistedTrFields → objGet row f = none →
      (f ++ ": " ++ v) ∉ fieldLines row) := by
  constructor
  · unfold testFor
    rw [hsec, hT, hst]
    by_cases hst0 : st = ""
    · subst hst0
      cases hER : objGet row "Expected Result" with
      | none => simp [truthy, jsStr, collapseWs, collapseWsAux]
      | some r =>
        by_cases hr : r = ""
        · subst hr
          simp [truthy, jsStr, collapseWs, collapseWsAux]
        · have hcr := collapseWs_ne_empty hr
          have h0 : collapseWs "" = "" := rfl
          simp [truthy, jsStr, hr, hcr, h0]
    · cases hER : objGet row "Expected Result" with
      | none => simp [truthy, jsStr, hst0]
      | some r =>
        by_cases hr : r = ""
        · subst hr
          simp [truthy, jsStr, hst0]
        · have hcr := collapseWs_ne_empty hr
          simp [truthy, jsStr, hst0, hr, hcr]
  · intro f v hf habs hmem
    unfold fieldLines at hmem
    rw [List.mem_filterMap] at hmem
    obtain ⟨g, hg, hgl⟩ := hmem
    rw [Option.map_eq_some'] at hgl
    obtain ⟨w, hw, hline⟩ := hgl
    have hdata := congrArg String.data hline
    rw [fieldLine_data, fieldLine_data] at hdata
    have hg' := colon_prefix_inj g.data f.data (persisted_colon_free g hg)
      (persisted_colon_free f hf) _ _ hdata
    have hgf : g = f := stringDataInj hg'
    subst hgf
    rw [habs] at hw
    simp at hw

/-- Witness for the amended C7. -/
theorem testFor_best_effort_witness :
    testFor [("Title", "T"), ("Section", "sec"), ("Steps", "S")]
      = some ("sec/T.test.txt", "S\n\n") ∧
    ("Priority" ++ ": " ++ "x")
      ∉ fieldLines [("Title", "T"), ("Section", "sec"), ("Steps", "S")] := by
  have h := testFor_best_effort [("Title", "T"), ("Section", "sec"), ("Steps", "S")]
    "T" "sec" "S" (by decide) (by decide) (by decide)
  exact ⟨h.1.trans (by decide), h.2 "Priority" "x" (by decide) (by decide)⟩

/-! ### Split, join, and trim lemmas for the round-trip proof -/

theorem splitOnChar_ne_nil (sep : Char) (l : List Char) :
    splitOnChar sep l ≠ [] := by
  cases l with
  | nil => simp [splitOnChar]
  | cons c r =>
    unfold splitOnChar
    split
    · simp
    · cases splitOnChar sep r <;> simp [consHead]

theorem splitOnChar_append (sep : Char) (xs ys : List Char) :
    splitOnChar sep (xs ++ sep :: ys) = splitOnChar sep xs ++ splitOnChar sep ys := by
  induction xs with
  | nil => simp [splitOnChar]
  | cons c r ih =>
    by_cases hc : c = sep
    · subst hc
      simp [splitOnChar, ih]
    · show splitOnChar sep (c :: (r ++ sep :: ys)) = _
      rw [show splitOnChar sep (c :: (r ++ sep :: ys))
          = consHead c (splitOnChar sep (r ++ sep :: ys)) by simp [splitOnChar, hc]]
      rw [ih]
      rw [show splitOnChar sep (c :: r) = consHead c (splitOnChar sep r) by
        simp [splitOnChar, hc]]
      cases h : splitOnChar sep r with
      | nil => exact absurd h (splitOnChar_ne_nil sep r)
      | cons s ss => simp [consHead]

theorem splitOnChar_no_sep (sep : Char) (l : List Char)
    (h : ∀ c ∈ l, c ≠ sep) : splitOnChar sep l = [l] := by
  induction l with
  | nil => rfl
  | cons c r ih =>
    have hc : c ≠ sep := h c (List.mem_cons_self c r)
    have hr := ih (fun x hx => h x (List.mem_cons_of_mem c hx))
    simp [splitOnChar, hc, hr, consHead]

theorem joinWith_cons (sep : List Char) (x : List Char) (ys : List (List Char))
    (h : ys ≠ []) : joinWith sep (x :: ys) = x ++ sep ++ joinWith sep ys := by
  cases ys with
  | nil => exact absurd rfl h
  | cons y ys => rfl

theorem joinWith_splitOnChar (sep : Char) (l : List Char) :
    joinWith [sep] (splitOnChar sep l) = l := by
  induction l with
  | nil => rfl
  | cons c r ih =>
    by_cases hc : c = sep
    · subst hc
      rw [show splitOnChar c (c :: r) = [] :: splitOnChar c r by simp [splitOnChar]]
      rw [joinWith_cons _ _ _ (splitOnChar_ne_nil c r), ih]
      simp
    · rw [show splitOnChar sep (c :: r) = consHead c (splitOnChar sep r) by
        simp [splitOnChar, hc]]
      cases h : splitOnChar sep r with
      | nil => exact absurd h (splitOnChar_ne_nil sep r)
      | cons s ss =>
        rw [h] at ih
        cases ss with
        | nil =>
          simp only [consHead, joinWith] at ih ⊢
          rw [ih]
        | cons s2 ss2 =>
          simp only [consHead]
          show (c :: s) ++ [sep] ++ joinWith [sep] (s2 :: ss2) = c :: r
          have ih2 : s ++ [sep] ++ joinWith [sep] (s2 :: ss2) = r := ih
          rw [← ih2]
          simp

theorem splitOnChar_joinWith (sep : Char) (ls : List (List Char))
    (hne : ls ≠ []) (h : ∀ x ∈ ls, ∀ c ∈ x, c ≠ sep) :
    splitOnChar sep (joinWith [sep] ls) = ls := by
  induction ls with
  | nil => exact absurd rfl hne
  | cons x ys ih =>
    cases ys with
    | nil =>
      simp only [joinWith]
      exact splitOnChar_no_sep sep x (h x (List.mem_cons_self x []))
    | cons y ys2 =>
      rw [joinWith_cons _ _ _ (by simp)]
      rw [List.append_assoc, List.singleton_append]
      rw [splitOnChar_append]
      rw [splitOnChar_no_sep sep x (h x (List.mem_cons_self x _))]
      rw [ih (by simp) (fun z hz c hc => h z (List.mem_cons_of_mem x hz) c hc)]
      rfl

theorem trimWsL_append_ws (x w : List Char) (h : ∀ c ∈ w, jsWs c = true) :
    trimWsL (x ++ w) = trimWsL x := by
  have hw : w.dropWhile (jsWs ·) = [] := List.dropWhile_eq_nil_iff.mpr (by
    intro c hc; simpa using h c hc)
  have hwrev : w.reverse.dropWhile (jsWs ·) = [] := List.dropWhile_eq_nil_iff.mpr (by
    intro c hc; simpa using h c (List.mem_reverse.mp hc))
  cases hx : x.dropWhile (jsWs ·) with
  | nil => simp [trimWsL, List.dropWhile_append, hx, hw]
  | cons c cs =>
    simp [trimWsL, List.dropWhile_append, hx, hwrev, List.reverse_append]

theorem trimWsL_ws_append (x w : List Char) (h : ∀ c ∈ w, jsWs c = true) :
    trimWsL (w ++ x) = trimWsL x := by
  have hw : w.dropWhile (jsWs ·) = [] := List.dropWhile_eq_nil_iff.mpr (by
    intro c hc; simpa using h c hc)
  simp [trimWsL, List.dropWhile_append, hw]

/-! ### Parser run lemmas -/

theorem processLines_step_none (lines : List String) (st : ParseState)
    (hst : st.lineType = LineType.step)
    (h : ∀ l ∈ lines, findMatch trFields l.data = none) :
    processLines st lines =
      ⟨LineType.step, st.stepLines ++ lines, st.resultLines, st.contentFields⟩ := by
  induction lines generalizing st with
  | nil =>
    obtain ⟨lt, a, b, c⟩ := st
    simp only at hst
    subst hst
    simp [processLines]
  | cons l rest ih =>
    have hl := h l (List.mem_cons_self l rest)
    have key : processLine st l = { st with stepLines := st.stepLines ++ [l] } := by
      simp [processLine, hl, hst]
    have hstep : processLines st (l :: rest) = processLines (processLine st l) rest := rfl
    rw [hstep, key]
    rw [ih { st with stepLines := st.stepLines ++ [l] } hst
      (fun x hx => h x (List.mem_cons_of_mem l hx))]
    simp

theorem processLines_result_none (lines : List String) (st : ParseState)
    (hst : st.lineType = LineType.result)
    (h : ∀ l ∈ lines, findMatch trFields l.data = none) :
    processLines st lines =
      ⟨LineType.result, st.stepLines, st.resultLines ++ lines, st.contentFields⟩ := by
  induction lines generalizing st with
  | nil =>
    obtain ⟨lt, a, b, c⟩ := st
    simp only at hst
    subst hst
    simp [processLines]
  | cons l rest ih =>
    have hl := h l (List.mem_cons_self l rest)
    have key : processLine st l = { st with resultLines := st.resultLines ++ [l] } := by
      simp [processLine, hl, hst]
    have hstep : processLines st (l :: rest) = processLines (processLine st l) rest := rfl
    rw [hstep, key]
    rw [ih { st with resultLines := st.resultLines ++ [l] } hst
      (fun x hx => h x (List.mem_cons_of_mem l hx))]
    simp

theorem processLine_marker (st : ParseState) :
    processLine st "Expected Result:" =
      ⟨LineType.result, st.stepLines, st.resultLines ++ [""], st.contentFields⟩ := by
  have h : findMatch trFields "Expected Result:".data = some ("Expected Result", "") := by
    decide
  simp [processLine, h]

theorem processLines_fields (ps : Obj) (st : ParseState)
    (h : ∀ p ∈ ps,
      findMatch trFields ((p.1 ++ ": " ++ p.2) : String).data = some (p.1, p.2) ∧
      p.1 ≠ "Steps" ∧ p.1 ≠ "Expected Result") :
    processLines st (ps.map (fun p => p.1 ++ ": " ++ p.2)) =
      ⟨st.lineType, st.stepLines, st.resultLines,
        ps.foldl (fun o p => objSet o p.1 p.2) st.contentFields⟩ := by
  induction ps generalizing st with
  | nil => simp [processLines]
  | cons p rest ih =>
    obtain ⟨hm, hs, he⟩ := h p (List.mem_cons_self p rest)
    have key : processLine st (p.1 ++ ": " ++ p.2) =
        { st with contentFields := objSet st.contentFields p.1 p.2 } := by
      unfold processLine
      rw [hm]
      simp [hs, he]
    have hstep : processLines st ((p :: rest).map (fun p => p.1 ++ ": " ++ p.2)) =
        processLines (processLine st (p.1 ++ ": " ++ p.2))
          (rest.map (fun p => p.1 ++ ": " ++ p.2)) := rfl
    rw [hstep, key]
    rw [ih { st with contentFields := objSet st.contentFields p.1 p.2 }
      (fun x hx => h x (List.mem_cons_of_mem p hx))]
    simp

/-! ### Folding field assignments over a fresh object -/

theorem objSet_append_absent (o : Obj) (k v : String) (h : objGet o k = none) :
    objSet o k v = o ++ [(k, v)] := by
  induction o with
  | nil => rfl
  | cons p rest ih =>
    obtain ⟨k1, v1⟩ := p
    have h1 : k1 ≠ k := by
      intro e; subst e; simp [objGet] at h
    have h2 : objGet rest k = none := by simpa [objGet, h1] using h
    simp [objSet, h1, ih h2]

theorem objGet_append (o1 o2 : Obj) (k : String) :
    objGet (o1 ++ o2) k = match objGet o1 k with
      | some v => some v
      | none => objGet o2 k := by
  induction o1 with
  | nil => rfl
  | cons p rest ih =>
    obtain ⟨k1, v1⟩ := p
    by_cases h : k1 = k <;> simp [objGet, h, ih]

theorem foldl_objSet_disjoint (ps : Obj) (o : Obj)
    (hdisj : ∀ p ∈ ps, objGet o p.1 = none)
    (hpw : ps.Pairwise (fun a b => a.1 ≠ b.1)) :
    ps.foldl (fun o p => objSet o p.1 p.2) o = o ++ ps := by
  induction ps generalizing o with
  | nil => simp
  | cons p rest ih =>
    obtain ⟨k, v⟩ := p
    rw [List.pairwise_cons] at hpw
    have h0 : objGet o k = none := hdisj (k, v) (List.mem_cons_self _ _)
    have hset : objSet o k v = o ++ [(k, v)] := objSet_append_absent o k v h0
    have hnew : ∀ q ∈ rest, objGet (o ++ [(k, v)]) q.1 = none := by
      intro q hq
      rw [objGet_append, hdisj q (List.mem_cons_of_mem _ hq)]
      have hk : k ≠ q.1 := hpw.1 q hq
      simp [objGet, hk]
    show List.foldl (fun o p => objSet o p.1 p.2) (objSet o k v) rest = _
    rw [hset, ih (o ++ [(k, v)]) hnew hpw.2]
    simp

/-! ### Matching a field line built from a name and a value -/

theorem stripCIX_mismatch (g : List Char) : ∀ (pre : List Char),
    stripCIX g pre = StripRes.mismatch → ∀ v, stripCI g (pre ++ v) = none := by
  induction g with
  | nil => intro pre h v; simp [stripCIX] at h
  | cons p ps ih =>
    intro pre h v
    cases pre with
    | nil => simp [stripCIX] at h
    | cons c cs =>
      by_cases hc : lowerChar c = lowerChar p
      · simp only [stripCIX, if_pos hc] at h
        simp only [List.cons_append, stripCI, if_pos hc]
        exact ih cs h v
      · simp only [List.cons_append, stripCI, if_neg hc]

theorem stripCIX_done (g : List Char) : ∀ (pre r : List Char),
    stripCIX g pre = StripRes.done r → ∀ v, stripCI g (pre ++ v) = some (r ++ v) := by
  induction g with
  | nil =>
    intro pre r h v
    simp [stripCIX] at h
    subst h
    simp [stripCI]
  | cons p ps ih =>
    intro pre r h v
    cases pre with
    | nil => simp [stripCIX] at h
    | cons c cs =>
      by_cases hc : lowerChar c = lowerChar p
      · simp only [stripCIX, if_pos hc] at h
        simp only [List.cons_append, stripCI, if_pos hc]
        exact ih cs r h v
      · simp only [stripCIX, if_neg hc] at h
        exact StripRes.noConfusion h

theorem mfRejectsPre_sound (g pre : List Char) (h : mfRejectsPre g pre = true) :
    ∀ v, matchField g (pre ++ v) = none := by
  intro v
  cases pre with
  | nil => simp [mfRejectsPre] at h
  | cons c cs =>
    simp only [mfRejectsPre] at h
    unfold matchField
    have hd : dropOneWs ((c :: cs) ++ v)
        = (if jsWs c then cs else c :: cs) ++ v := by
      by_cases hc : jsWs c <;> simp [dropOneWs, hc]
    rw [hd]
    cases hx : stripCIX g (if jsWs c then cs else c :: cs) with
    | mismatch =>
      rw [stripCIX_mismatch g _ hx v]
    | leftover gr =>
      rw [hx] at h
      simp at h
    | done r1 =>
      rw [hx] at h
      rw [stripCIX_done g _ r1 hx v]
      cases r1 with
      | nil => simp at h
      | cons d ds =>
        have h2 : (match (if jsWs d = true then ds else d :: ds) with
          | [] => false
          | e :: _ => !(e == ':')) = true := h
        show (match dropOneWs ((d :: ds) ++ v) with
          | [] => none
          | c :: r2 => if c = ':' then some (dropOneWs r2) else none) = none
        have hd2 : dropOneWs ((d :: ds) ++ v)
            = (if jsWs d = true then ds else d :: ds) ++ v := by
          by_cases hdws : jsWs d <;> simp [dropOneWs, hdws]
        rw [hd2]
        cases hy : (if jsWs d = true then ds else d :: ds) with
        | nil => rw [hy] at h2; simp at h2
        | cons e es =>
          rw [hy] at h2
          simp only [Bool.not_eq_true', beq_eq_false_iff_ne] at h2
          simp [h2]

theorem findMatch_unique (fs : List String) (f : String) (l : List Char)
    (cap : List Char) (hf : f ∈ fs)
    (hrej : ∀ g ∈ fs, g ≠ f → matchField g.data l = none)
    (hacc : matchField f.data l = some cap) :
    findMatch fs l = some (f, String.mk cap) := by
  induction fs with
  | nil => simp at hf
  | cons g gs ih =>
    by_cases hg : g = f
    · subst hg
      simp [findMatch, hacc]
    · have hnone : matchField g.data l = none :=
        hrej g (List.mem_cons_self g gs) hg
      have hf2 : f ∈ gs := by
        rcases List.mem_cons.mp hf with he | hm
        · exact absurd he.symm hg
        · exact hm
      simp only [findMatch, hnone]
      exact ih hf2 (fun g2 hg2 hne => hrej g2 (List.mem_cons_of_mem g hg2) hne)

theorem persisted_rejects :
    ∀ f ∈ persistedTrFields, ∀ g ∈ trFields, g ≠ f →
      mfRejectsPre g.data (f.data ++ [':', ' ']) = true := by
  decide

theorem persisted_head_nonws :
    ∀ f ∈ persistedTrFields, f.data.head?.all (fun c => !jsWs c) = true := by
  decide

theorem persisted_ne_nil : ∀ f ∈ persistedTrFields, f.data ≠ [] := by
  decide

theorem persisted_mem_trFields : ∀ f ∈ persistedTrFields, f ∈ trFields := by
  decide

theorem persisted_not_special :
    ∀ f ∈ persistedTrFields, f ≠ "Steps" ∧ f ≠ "Expected Result" ∧
      f ≠ "Title" ∧ f ≠ "Section" := by
  decide

theorem matchField_self_line (f : List Char) (v : List Char)
    (hne : f ≠ []) (hnws : f.head?.all (fun c => !jsWs c) = true) :
    matchField f (f ++ ':' :: ' ' :: v) = some v := by
  cases f with
  | nil => exact absurd rfl hne
  | cons c cs =>
    simp only [List.head?_cons, Option.all_some, Bool.not_eq_true'] at hnws
    unfold matchField
    have hd : dropOneWs ((c :: cs) ++ ':' :: ' ' :: v) = (c :: cs) ++ ':' :: ' ' :: v := by
      simp [dropOneWs, hnws]
    rw [hd, stripCI_append (c :: cs) (c :: cs) rfl (':' :: ' ' :: v)]
    have hcolon : jsWs ':' = false := by decide
    have hsp : jsWs ' ' = true := by decide
    simp [dropOneWs, hcolon, hsp]

/-- A field line written by the serializer is matched back by exactly its
own field, whatever the value: every other regex in the registry rejects
it, and the capture is the value itself. -/
theorem persisted_line_match (f v : String) (hf : f ∈ persistedTrFields) :
    findMatch trFields ((f ++ ": " ++ v) : String).data = some (f, v) := by
  have hdata : ((f ++ ": " ++ v) : String).data
      = (f.data ++ [':', ' ']) ++ v.data := by
    rw [fieldLine_data]
    simp
  rw [hdata]
  have hself : matchField f.data ((f.data ++ [':', ' ']) ++ v.data)
      = some v.data := by
    have h1 : (f.data ++ [':', ' ']) ++ v.data = f.data ++ ':' :: ' ' :: v.data := by
      simp
    rw [h1]
    exact matchField_self_line f.data v.data (persisted_ne_nil f hf)
      (persisted_head_nonws f hf)
  have h := findMatch_unique trFields f ((f.data ++ [':', ' ']) ++ v.data) v.data
    (persisted_mem_trFields f hf) ?_ hself
  · rw [h, stringMkData]
  · intro g hg hne
    exact mfRejectsPre_sound g.data (f.data ++ [':', ' '])
      (persisted_rejects f hf g hg hne) v.data

/-! ### The persisted restriction of a row -/

theorem persistedOf_sub (row : Obj) :
    ∀ p ∈ persistedOf row, p.1 ∈ persistedTrFields ∧ objGet row p.1 = some p.2 := by
  intro p hp
  unfold persistedOf at hp
  rw [List.mem_filterMap] at hp
  obtain ⟨f, hf, hfp⟩ := hp
  rw [Option.map_eq_some'] at hfp
  obtain ⟨v, hv, he⟩ := hfp
  cases he
  exact ⟨hf, hv⟩

theorem persistedOf_keys_sublist (row : Obj) :
    ((persistedOf row).map Prod.fst).Sublist persistedTrFields := by
  unfold persistedOf
  have key : ∀ (fs : List String),
      ((fs.filterMap (fun f => (objGet row f).map (fun v => (f, v)))).map
        Prod.fst).Sublist fs := by
    intro fs
    induction fs with
    | nil => simp
    | cons g gs ih =>
      rw [List.filterMap_cons]
      cases h : objGet row g with
      | none => simpa using ih.cons g
      | some w =>
        simp only [Option.map_some']
        exact List.Sublist.cons₂ g ih
  exact key persistedTrFields

theorem persistedOf_pairwise (row : Obj) :
    (persistedOf row).Pairwise (fun a b => a.1 ≠ b.1) := by
  have h1 : ((persistedOf row).map Prod.fst).Nodup :=
    (persistedOf_keys_sublist row).nodup (by decide : persistedTrFields.Nodup)
  exact List.pairwise_map.mp (h1 : List.Pairwise (fun a b => a ≠ b) _)

theorem fieldLines_eq (row : Obj) :
    fieldLines row = (persistedOf row).map (fun p => p.1 ++ ": " ++ p.2) := by
  unfold fieldLines persistedOf
  have key : ∀ (fs : List String),
      fs.filterMap (fun f => (objGet row f).map (fun v => f ++ ": " ++ v))
        = (fs.filterMap (fun f => (objGet row f).map (fun v => (f, v)))).map
            (fun p => p.1 ++ ": " ++ p.2) := by
    intro fs
    induction fs with
    | nil => rfl
    | cons g gs ih =>
      rw [List.filterMap_cons, List.filterMap_cons]
      cases h : objGet row g with
      | none => simpa using ih
      | some w => simp [ih]
  exact key persistedTrFields

/-! ### Characters that survive sanitization -/

theorem safeTitleChar_ne (c : Char) (h : safeTitleChar c) :
    c ≠ '\\' ∧ c ≠ '/' ∧ c ≠ '.' := by
  refine ⟨?_, ?_, ?_⟩ <;> intro he <;> subst he <;> revert h <;> decide

theorem safeTitleChar_replaceSep (c : Char) (h : safeTitleChar c) :
    replaceSepChar c = c := by
  have hne := safeTitleChar_ne c h
  simp [replaceSepChar, hne.1, hne.2.1]

theorem safeTitleChar_whitelist (c : Char) (h : safeTitleChar c) :
    whitelistChar c = c := by
  unfold whitelistChar
  rcases h with h | h | h | h
  · rw [if_pos (Or.inl h)]
  · rw [if_pos (Or.inr (Or.inl h))]
  · rw [if_pos (Or.inr (Or.inr (Or.inl h)))]
  · subst h; decide

theorem map_self_of (f : Char → Char) (l : List Char) (h : ∀ c ∈ l, f c = c) :
    l.map f = l := by
  induction l with
  | nil => rfl
  | cons c cs ih =>
    simp [h c (List.mem_cons_self c cs),
      ih (fun x hx => h x (List.mem_cons_of_mem c hx))]

/-! ### Path normalization keeps a trailing safe segment -/

theorem joinWith_append_last (sep : List Char) (ys : List (List Char))
    (x : List Char) (h : ys ≠ []) :
    joinWith sep (ys ++ [x]) = joinWith sep ys ++ sep ++ x := by
  induction ys with
  | nil => exact absurd rfl h
  | cons y ys ih =>
    cases ys with
    | nil => rfl
    | cons y2 ys2 =>
      have ih2 := ih (by simp)
      show y ++ sep ++ joinWith sep ((y2 :: ys2) ++ [x]) = _
      rw [ih2]
      simp [joinWith, List.append_assoc]

theorem normSegs_append_last (allow : Bool) (ss : List (List Char))
    (x : List Char) (h1 : x ≠ []) (h2 : x ≠ ['.']) (h3 : x ≠ ['.', '.']) :
    normSegs allow (ss ++ [x]) = normSegs allow ss ++ [x] := by
  unfold normSegs
  rw [List.foldl_append]
  simp [h1, h2, h3]

theorem beq_head_ne (l : List Char) (c0 : Char) (hne : l ≠ [])
    (h : ∀ c ∈ l, c ≠ c0) : (l.head? == some c0) = false := by
  cases l with
  | nil => exact absurd rfl hne
  | cons c cs =>
    simp only [List.head?_cons]
    exact beq_eq_false_iff_ne.mpr (by
      simp [h c (List.mem_cons_self c cs)])

theorem beq_getLast_ne (l : List Char) (c0 : Char)
    (h : ∀ c ∈ l, c ≠ c0) : (l.getLast? == some c0) = false := by
  cases hgl : l.getLast? with
  | none => rfl
  | some a =>
    have ha : a ∈ l := List.mem_of_mem_getLast? hgl
    exact beq_eq_false_iff_ne.mpr (by simp [h a ha])

/-- Normalizing a one-segment path made of a plain segment returns it. -/
theorem pathNormalize_single (t : List Char) (hne : t ≠ [])
    (hsep : ∀ c ∈ t, c ≠ '/') (hdot : t ≠ ['.']) (hdd : t ≠ ['.', '.']) :
    (pathNormalize (String.mk t)).data = t := by
  unfold pathNormalize
  have habs : (t.head? == some '/') = false := beq_head_ne t '/' hne hsep
  have htrail : (t.getLast? == some '/') = false := beq_getLast_ne t '/' hsep
  have hsplit : splitOnChar '/' t = [t] := splitOnChar_no_sep '/' t hsep
  simp only [habs, htrail, hsplit]
  have hsegs : normSegs true [t] = [t] := by
    have := normSegs_append_last true [] t hne hdot hdd
    simpa using this
  simp [hsegs, joinWith, hne]

/-- Normalizing a path that ends in a separator followed by a plain
segment keeps that segment last, preceded by nothing or by a separator. -/
theorem pathNormalize_last (pre t : List Char) (hne : t ≠ [])
    (hsep : ∀ c ∈ t, c ≠ '/') (hdot : t ≠ ['.']) (hdd : t ≠ ['.', '.']) :
    ∃ P, (pathNormalize (String.mk (pre ++ '/' :: t))).data = P ++ t ∧
      (P = [] ∨ ∃ Q, P = Q ++ ['/']) := by
  have htrail : ((pre ++ '/' :: t).getLast? == some '/') = false := by
    rw [List.getLast?_append_of_ne_nil pre (by simp : ('/' :: t) ≠ [])]
    rw [show ('/' :: t) = ['/'] ++ t from rfl,
      List.getLast?_append_of_ne_nil ['/'] hne]
    exact beq_getLast_ne t '/' hsep
  unfold pathNormalize
  have hdata : (String.mk (pre ++ '/' :: t)).data = pre ++ '/' :: t := rfl
  simp only [hdata, htrail, Bool.false_eq_true, if_false]
  rw [splitOnChar_append, splitOnChar_no_sep '/' t hsep,
    normSegs_append_last _ _ t hne hdot hdd]
  generalize ((pre ++ '/' :: t).head? == some '/') = b
  have hnonempty : ¬ (normSegs (!b) (splitOnChar '/' pre) ++ [t] = []) := by simp
  rw [if_neg hnonempty]
  cases b with
  | false =>
    simp only [Bool.not_false, Bool.false_eq_true, if_false]
    cases hN : normSegs true (splitOnChar '/' pre) with
    | nil =>
      refine ⟨[], ?_, Or.inl rfl⟩
      simp [joinWith]
    | cons N0 N1 =>
      refine ⟨joinWith ['/'] (N0 :: N1) ++ ['/'], ?_,
        Or.inr ⟨joinWith ['/'] (N0 :: N1), rfl⟩⟩
      rw [joinWith_append_last ['/'] (N0 :: N1) t (by simp)]
  | true =>
    simp only [Bool.not_true, if_true]
    cases hN : normSegs false (splitOnChar '/' pre) with
    | nil =>
      refine ⟨['/'], ?_, Or.inr ⟨[], by simp⟩⟩
      simp [joinWith]
    | cons N0 N1 =>
      refine ⟨'/' :: (joinWith ['/'] (N0 :: N1) ++ ['/']), ?_,
        Or.inr ⟨'/' :: joinWith ['/'] (N0 :: N1), by simp⟩⟩
      rw [joinWith_append_last ['/'] (N0 :: N1) t (by simp)]
      simp [List.append_assoc]

theorem pathJoin_shape (sp t : String) (hne : t.data ≠ [])
    (hsep : ∀ c ∈ t.data, c ≠ '/') (hdot : t.data ≠ ['.'])
    (hdd : t.data ≠ ['.', '.']) :
    ∃ P, (pathJoin sp t).data = P ++ t.data ∧ (P = [] ∨ ∃ Q, P = Q ++ ['/']) := by
  have htne : t ≠ "" := by
    intro he
    apply hne
    rw [he]
  unfold pathJoin
  by_cases hsp : sp = ""
  · subst hsp
    have hparts : (([(("" : String)), t]).filter (fun s => s != "")) = [t] := by
      simp [htne]
    rw [hparts, if_neg (by simp : ¬ ([t] : List String) = [])]
    have hjoin : joinWith ['/'] ([t].map String.data) = t.data := rfl
    rw [show ([t].map String.data) = [t.data] from rfl]
    rw [show joinWith ['/'] [t.data] = t.data from rfl]
    exact ⟨[], pathNormalize_single t.data hne hsep hdot hdd, Or.inl rfl⟩
  · have hparts : (([sp, t]).filter (fun s => s != "")) = [sp, t] := by
      simp [hsp, htne]
    rw [hparts, if_neg (by simp : ¬ ([sp, t] : List String) = [])]
    rw [show ([sp, t].map String.data) = [sp.data, t.data] from rfl]
    rw [show joinWith ['/'] [sp.data, t.data] = sp.data ++ '/' :: t.data by
      show sp.data ++ ['/'] ++ t.data = sp.data ++ '/' :: t.data
      simp]
    exact pathNormalize_last sp.data t.data hne hsep hdot hdd

theorem takeWhile_append_all (p : Char → Bool) (A B : List Char)
    (h : ∀ a ∈ A, p a = true) :
    (A ++ B).takeWhile p = A ++ B.takeWhile p := by
  induction A with
  | nil => rfl
  | cons a as ih =>
    simp [List.takeWhile_cons, h a (List.mem_cons_self a as),
      ih (fun x hx => h x (List.mem_cons_of_mem a hx))]

theorem basename_shape (P X : List Char) (hXne : X ≠ [])
    (hX : ∀ c ∈ X, c ≠ '/') (hP : P = [] ∨ ∃ Q, P = Q ++ ['/']) :
    pathBasename (String.mk (P ++ X)) = String.mk X := by
  unfold pathBasename
  apply congrArg String.mk
  have hdata : (String.mk (P ++ X)).data = P ++ X := rfl
  rw [hdata, List.reverse_append]
  obtain ⟨c, cs, hcons⟩ : ∃ c cs, X.reverse = c :: cs := by
    cases hx : X.reverse with
    | nil =>
      exfalso
      apply hXne
      rw [← List.reverse_reverse X, hx]
      rfl
    | cons c cs => exact ⟨c, cs, rfl⟩
  have hrevmem : ∀ x ∈ X.reverse, x ≠ '/' := fun x hx => hX x (List.mem_reverse.mp hx)
  have hc : c ≠ '/' := hrevmem c (by rw [hcons]; exact List.mem_cons_self c cs)
  rw [hcons]
  rw [show ((c :: cs) ++ P.reverse) = c :: (cs ++ P.reverse) from rfl]
  rw [List.dropWhile_cons_of_neg (by simp [hc])]
  rw [show c :: (cs ++ P.reverse) = (c :: cs) ++ P.reverse from rfl]
  rw [takeWhile_append_all _ _ _ (fun a ha => by
    simp [hrevmem a (by rw [hcons]; exact ha)])]
  have htk : P.reverse.takeWhile (fun c => decide (c ≠ '/')) = [] := by
    rcases hP with h | ⟨Q, hQ⟩
    · subst h; rfl
    · subst hQ
      rw [List.reverse_append]
      rfl
  rw [htk]
  rw [List.append_nil, ← hcons, List.reverse_reverse]

theorem stringMkAppend (A : List Char) (s : String) :
    String.mk A ++ s = String.mk (A ++ s.data) := by
  cases s; rfl

theorem stripTestSuffix_append (T : String) :
    stripTestSuffix (T ++ testFileSuffix) = T := by
  unfold stripTestSuffix
  rw [stringDataAppend, List.reverse_append]
  have hlen : testFileSuffix.data.reverse.length = 9 := by decide
  have htake : (testFileSuffix.data.reverse ++ T.data.reverse).take 9
      = testFileSuffix.data.reverse := by
    rw [← hlen]
    exact List.take_left _ _
  rw [htake, if_pos rfl]
  have hsfx9 : testFileSuffix.data.length = 9 := by decide
  have hlen2 : (T.data ++ testFileSuffix.data).length = T.data.length + 9 := by
    rw [List.length_append, hsfx9]
  rw [hlen2]
  have h9 : T.data.length + 9 - 9 = T.data.length := by omega
  rw [h9]
  rw [show (T.data ++ testFileSuffix.data).take T.data.length = T.data from
    List.take_left _ _]

/-- The title assembled into the path by `safePath` comes back unchanged
through basename and suffix stripping, whatever the section text, when
the title is nonempty, at most 200 characters, and made of characters
that survive sanitization. -/
theorem safePath_title (sec T : String) (hTne : T ≠ "")
    (hTsafe : ∀ c ∈ T.data, safeTitleChar c) (hTlen : T.data.length ≤ 200) :
    stripTestSuffix (pathBasename (safePath sec T ++ testFileSuffix)) = T := by
  have hTdne : T.data ≠ [] := by
    intro he
    exact hTne (stringDataInj he)
  have hmap : (replaceSeps T).data = T.data :=
    map_self_of _ _ (fun c hc => safeTitleChar_replaceSep c (hTsafe c hc))
  have ht : String.mk ((replaceSeps T).data.take 200) = T := by
    rw [hmap, List.take_of_length_le hTlen, stringMkData]
  have hsafe : safePath sec T = String.mk (List.map whitelistChar
      (pathJoin (String.mk (replaceGtWithSep (replaceSeps sec).data)) T).data) := by
    unfold safePath
    rw [ht]
  rw [hsafe]
  obtain ⟨P, hPdata, hPshape⟩ :=
    pathJoin_shape (String.mk (replaceGtWithSep (replaceSeps sec).data)) T hTdne
      (fun c hc => (safeTitleChar_ne c (hTsafe c hc)).2.1)
      (fun he => by
        have hmem : '.' ∈ T.data := by rw [he]; exact List.mem_cons_self _ _
        exact (safeTitleChar_ne '.' (hTsafe '.' hmem)).2.2 rfl)
      (fun he => by
        have hmem : '.' ∈ T.data := by rw [he]; exact List.mem_cons_self _ _
        exact (safeTitleChar_ne '.' (hTsafe '.' hmem)).2.2 rfl)
  have hmapwl : (pathJoin (String.mk (replaceGtWithSep (replaceSeps sec).data))
      T).data.map whitelistChar = (P.map whitelistChar) ++ T.data := by
    rw [hPdata, List.map_append,
      map_self_of _ _ (fun c hc => safeTitleChar_whitelist c (hTsafe c hc))]
  rw [hmapwl, stringMkAppend, List.append_assoc]
  rw [basename_shape (P.map whitelistChar) (T.data ++ testFileSuffix.data)
    (by simp [hTdne])
    (by
      intro c hc
      rcases List.mem_append.mp hc with hT | hs
      · exact (safeTitleChar_ne c (hTsafe c hT)).2.1
      · revert hs
        have : ∀ c ∈ testFileSuffix.data, c ≠ '/' := by decide
        exact this c)
    (by
      rcases hPshape with h | ⟨Q, hQ⟩
      · subst h; exact Or.inl rfl
      · subst hQ
        right
        refine ⟨Q.map whitelistChar, ?_⟩
        rw [List.map_append]
        rfl)]
  rw [← stringDataAppend, stringMkData]
  exact stripTestSuffix_append T

/-! ### Assembling the parse of a serialized content string -/

theorem processLines_append (st : ParseState) (l1 l2 : List String) :
    processLines st (l1 ++ l2) = processLines (processLines st l1) l2 :=
  List.foldl_append _ _ _ _

theorem persisted_no_newline : ∀ f ∈ persistedTrFields, '\n' ∉ f.data := by
  decide

theorem data_mk_id : String.data ∘ String.mk = id := rfl

theorem map_mk_data (L : List (List Char)) :
    ((L.map String.mk).map String.data) = L := by
  rw [List.map_map, data_mk_id, List.map_id]

theorem mk_data_id : String.mk ∘ String.data = id := by
  funext s
  exact stringMkData s

theorem map_data_mk (L : List String) :
    ((L.map String.data).map String.mk) = L := by
  rw [List.map_map, mk_data_id, List.map_id]

theorem nl_ws : ∀ c ∈ ['\n'], jsWs c = true := by decide

theorem nl2_ws : ∀ c ∈ ['\n', '\n'], jsWs c = true := by decide

theorem join_split_one (A : List Char) :
    joinWith ['\n'] (splitOnChar '\n' A ++ [[]]) = A ++ ['\n'] := by
  rw [joinWith_append_last ['\n'] _ _ (splitOnChar_ne_nil '\n' A),
    joinWith_splitOnChar]
  simp

theorem join_split_two (A : List Char) :
    joinWith ['\n'] ((splitOnChar '\n' A ++ [[]]) ++ [[]]) = A ++ ['\n', '\n'] := by
  rw [joinWith_append_last ['\n'] _ _ (by simp), join_split_one]
  simp

theorem trim_join_steps_one (A : List Char) :
    jsTrim (jsJoinNl ((splitOnChar '\n' A).map String.mk ++ [""])) =
      String.mk (trimWsL A) := by
  unfold jsTrim jsJoinNl
  apply congrArg String.mk
  rw [show ((splitOnChar '\n' A).map String.mk ++ [""]).map String.data
      = splitOnChar '\n' A ++ [[]] by
    rw [List.map_append, map_mk_data]; rfl]
  rw [join_split_one]
  exact trimWsL_append_ws A ['\n'] nl_ws

theorem trim_join_steps_two (A : List Char) :
    jsTrim (jsJoinNl ((splitOnChar '\n' A).map String.mk ++ ["", ""])) =
      String.mk (trimWsL A) := by
  unfold jsTrim jsJoinNl
  apply congrArg String.mk
  rw [show ((splitOnChar '\n' A).map String.mk ++ ["", ""]).map String.data
      = (splitOnChar '\n' A ++ [[]]) ++ [[]] by
    rw [List.map_append, map_mk_data]
    simp]
  rw [join_split_two]
  exact trimWsL_append_ws A ['\n', '\n'] nl2_ws

theorem trim_join_results_one (A : List Char) :
    jsTrim (jsJoinNl ("" :: ((splitOnChar '\n' A).map String.mk ++ [""]))) =
      String.mk (trimWsL A) := by
  unfold jsTrim jsJoinNl
  apply congrArg String.mk
  rw [show ("" :: ((splitOnChar '\n' A).map String.mk ++ [""])).map String.data
      = [] :: (splitOnChar '\n' A ++ [[]]) by
    rw [List.map_cons, List.map_append, map_mk_data]; rfl]
  rw [joinWith_cons ['\n'] [] _ (by simp), join_split_one]
  rw [show ([] : List Char) ++ ['\n'] ++ (A ++ ['\n']) = ['\n'] ++ (A ++ ['\n'])
    from rfl]
  rw [trimWsL_ws_append _ ['\n'] nl_ws]
  exact trimWsL_append_ws A ['\n'] nl_ws

theorem trim_join_results_two (A : List Char) :
    jsTrim (jsJoinNl ("" :: ((splitOnChar '\n' A).map String.mk ++ ["", ""]))) =
      String.mk (trimWsL A) := by
  unfold jsTrim jsJoinNl
  apply congrArg String.mk
  rw [show ("" :: ((splitOnChar '\n' A).map String.mk ++ ["", ""])).map String.data
      = [] :: ((splitOnChar '\n' A ++ [[]]) ++ [[]]) by
    rw [List.map_cons, List.map_append, map_mk_data]
    simp]
  rw [joinWith_cons ['\n'] [] _ (by simp), join_split_two]
  rw [show ([] : List Char) ++ ['\n'] ++ (A ++ ['\n', '\n'])
      = ['\n'] ++ (A ++ ['\n', '\n']) from rfl]
  rw [trimWsL_ws_append _ ['\n'] nl_ws]
  exact trimWsL_append_ws A ['\n', '\n'] nl2_ws

/-- Parsing the exact content produced by the serializer from steps,
result, and the persisted fields of a row recovers trimmed steps, trimmed
result, and exactly the persisted restriction of the row. -/
theorem parseContent_roundtrip (S R : String) (row : Obj)
    (hSlines : ∀ l ∈ splitOnChar '\n' (collapseWs S).data,
      findMatch trFields l = none)
    (hRlines : ∀ l ∈ splitOnChar '\n' (collapseWs R).data,
      findMatch trFields l = none)
    (hvals : ∀ p ∈ persistedOf row, '\n' ∉ p.2.data) :
    jsTrim (jsJoinNl (parseContent (collapseWs S ++ "\n\n" ++
        (if R = "" then "" else "Expected Result:\n" ++ collapseWs R ++ "\n\n") ++
        jsJoinNl (fieldLines row))).stepLines) = jsTrim (collapseWs S) ∧
    jsTrim (jsJoinNl (parseContent (collapseWs S ++ "\n\n" ++
        (if R = "" then "" else "Expected Result:\n" ++ collapseWs R ++ "\n\n") ++
        jsJoinNl (fieldLines row))).resultLines) = jsTrim (collapseWs R) ∧
    (parseContent (collapseWs S ++ "\n\n" ++
        (if R = "" then "" else "Expected Result:\n" ++ collapseWs R ++ "\n\n") ++
        jsJoinNl (fieldLines row))).contentFields = persistedOf row := by
  have hnmS : ∀ l ∈ (splitOnChar '\n' (collapseWs S).data).map String.mk,
      findMatch trFields l.data = none := by
    intro l hl
    obtain ⟨x, hx, he⟩ := List.mem_map.mp hl
    rw [← he]
    exact hSlines x hx
  have hnmR : ∀ l ∈ (splitOnChar '\n' (collapseWs R).data).map String.mk,
      findMatch trFields l.data = none := by
    intro l hl
    obtain ⟨x, hx, he⟩ := List.mem_map.mp hl
    rw [← he]
    exact hRlines x hx
  have hnm1 : ∀ l ∈ ([""] : List String), findMatch trFields l.data = none := by
    decide
  have hnm2 : ∀ l ∈ (["", ""] : List String), findMatch trFields l.data = none := by
    decide
  have hfieldsOK : ∀ p ∈ persistedOf row,
      findMatch trFields ((p.1 ++ ": " ++ p.2) : String).data = some (p.1, p.2) ∧
      p.1 ≠ "Steps" ∧ p.1 ≠ "Expected Result" := by
    intro p hp
    have hf := (persistedOf_sub row p hp).1
    exact ⟨persisted_line_match p.1 p.2 hf, (persisted_not_special p.1 hf).1,
      (persisted_not_special p.1 hf).2.1⟩
  have hfold : (persistedOf row).foldl (fun o p => objSet o p.1 p.2) ([] : Obj)
      = persistedOf row := by
    have h := foldl_objSet_disjoint (persistedOf row) []
      (fun p _ => rfl) (persistedOf_pairwise row)
    simpa using h
  have hFLn : ∀ x ∈ (fieldLines row).map String.data, ∀ c ∈ x, c ≠ '\n' := by
    intro x hx c hc
    obtain ⟨l, hl, he⟩ := List.mem_map.mp hx
    rw [fieldLines_eq] at hl
    obtain ⟨p, hp, hpe⟩ := List.mem_map.mp hl
    rw [← he, ← hpe, fieldLine_data] at hc
    intro hceq
    subst hceq
    rcases List.mem_append.mp hc with h1 | h2
    · exact persisted_no_newline p.1 (persistedOf_sub row p hp).1 h1
    · simp only [List.mem_cons] at h2
      rcases h2 with h | h | h
      · exact absurd h (by decide)
      · exact absurd h (by decide)
      · exact hvals p hp h
  have hcons : ∀ r, splitOnChar '\n' ('\n' :: r) = [] :: splitOnChar '\n' r := by
    intro r
    simp [splitOnChar]
  have hmk0 : String.mk [] = "" := rfl
  have hmarker : String.mk ("Expected Result:".data) = "Expected Result:" :=
    stringMkData _
  have hsplitER : splitOnChar '\n' ("Expected Result:".data)
      = ["Expected Result:".data] := by decide
  have hmarkerRun : ∀ st : ParseState, processLines st ["Expected Result:"]
      = processLine st "Expected Result:" := fun st => rfl
  by_cases hFL : fieldLines row = []
  · have hPO : persistedOf row = [] := by
      have h := fieldLines_eq row
      rw [hFL] at h
      cases hp : persistedOf row with
      | nil => rfl
      | cons a l => rw [hp] at h; simp at h
    by_cases hR0 : R = ""
    · subst hR0
      rw [if_pos rfl, hFL]
      have hdata : (collapseWs S ++ "\n\n" ++ "" ++ jsJoinNl []).data
          = (collapseWs S).data ++ '\n' :: ('\n' :: []) := by
        rw [show jsJoinNl [] = "" from rfl]
        simp [stringDataAppend]
      have hlines : jsSplitLines (collapseWs S ++ "\n\n" ++ "" ++ jsJoinNl [])
          = (splitOnChar '\n' (collapseWs S).data).map String.mk ++ ["", ""] := by
        unfold jsSplitLines
        rw [hdata, splitOnChar_append, hcons]
        simp [hmk0, splitOnChar]
      unfold parseContent
      rw [hlines]
      simp only [processLines_append]
      rw [processLines_step_none _ initState rfl hnmS]
      rw [processLines_step_none ["", ""] _ rfl hnm2]
      refine ⟨?_, ?_, ?_⟩
      · show jsTrim (jsJoinNl (([] : List String) ++
          (splitOnChar '\n' (collapseWs S).data).map String.mk ++ ["", ""])) = _
        rw [List.nil_append]
        exact trim_join_steps_two _
      · rfl
      · rw [hPO]
        rfl
    · rw [if_neg hR0, hFL]
      have hdata : (collapseWs S ++ "\n\n" ++
          ("Expected Result:\n" ++ collapseWs R ++ "\n\n") ++ jsJoinNl []).data
          = (collapseWs S).data ++ '\n' :: ('\n' :: ("Expected Result:".data ++
            '\n' :: ((collapseWs R).data ++ '\n' :: ('\n' :: [])))) := by
        rw [show jsJoinNl [] = "" from rfl]
        simp [stringDataAppend]
      have hlines : jsSplitLines (collapseWs S ++ "\n\n" ++
          ("Expected Result:\n" ++ collapseWs R ++ "\n\n") ++ jsJoinNl [])
          = (splitOnChar '\n' (collapseWs S).data).map String.mk ++ [""] ++
            ["Expected Result:"] ++
            (splitOnChar '\n' (collapseWs R).data).map String.mk ++ ["", ""] := by
        unfold jsSplitLines
        rw [hdata, splitOnChar_append, hcons, splitOnChar_append, hsplitER,
          splitOnChar_append, hcons]
        simp [hmk0, hmarker, splitOnChar]
      unfold parseContent
      rw [hlines]
      simp only [processLines_append]
      rw [processLines_step_none _ initState rfl hnmS]
      rw [processLines_step_none [""] _ rfl hnm1]
      rw [hmarkerRun, processLine_marker]
      rw [processLines_result_none _ _ rfl hnmR]
      rw [processLines_result_none ["", ""] _ rfl hnm2]
      refine ⟨?_, ?_, ?_⟩
      · show jsTrim (jsJoinNl (([] : List String) ++
          (splitOnChar '\n' (collapseWs S).data).map String.mk ++ [""])) = _
        rw [List.nil_append]
        exact trim_join_steps_one _
      · show jsTrim (jsJoinNl ((([] : List String) ++ [""]) ++
          (splitOnChar '\n' (collapseWs R).data).map String.mk ++ ["", ""])) = _
        rw [show (([] : List String) ++ [""]) ++
            (splitOnChar '\n' (collapseWs R).data).map String.mk ++ ["", ""]
            = "" :: ((splitOnChar '\n' (collapseWs R).data).map String.mk ++ ["", ""])
          from by simp]
        exact trim_join_results_two _
      · rw [hPO]
        rfl
  · by_cases hR0 : R = ""
    · subst hR0
      rw [if_pos rfl]
      have hdata : (collapseWs S ++ "\n\n" ++ "" ++ jsJoinNl (fieldLines row)).data
          = (collapseWs S).data ++ '\n' :: ('\n' ::
            (jsJoinNl (fieldLines row)).data) := by
        simp [stringDataAppend]
      have hD : splitOnChar '\n' (jsJoinNl (fieldLines row)).data
          = (fieldLines row).map String.data := by
        show splitOnChar '\n' (joinWith ['\n'] ((fieldLines row).map String.data)) = _
        exact splitOnChar_joinWith '\n' _ (by simpa using hFL) hFLn
      have hlines : jsSplitLines (collapseWs S ++ "\n\n" ++ "" ++
          jsJoinNl (fieldLines row))
          = (splitOnChar '\n' (collapseWs S).data).map String.mk ++ [""] ++
            fieldLines row := by
        unfold jsSplitLines
        rw [hdata, splitOnChar_append, hcons, hD]
        simp [hmk0]
        rw [show (String.mk ∘ String.data) = fun s : String => s from
          funext (fun s => rfl), List.map_id']
      unfold parseContent
      rw [hlines]
      simp only [processLines_append]
      rw [processLines_step_none _ initState rfl hnmS]
      rw [processLines_step_none [""] _ rfl hnm1]
      rw [fieldLines_eq, processLines_fields _ _ hfieldsOK]
      refine ⟨?_, ?_, ?_⟩
      · show jsTrim (jsJoinNl (([] : List String) ++
          (splitOnChar '\n' (collapseWs S).data).map String.mk ++ [""])) = _
        rw [List.nil_append]
        exact trim_join_steps_one _
      · rfl
      · simpa using hfold
    · rw [if_neg hR0]
      have hdata : (collapseWs S ++ "\n\n" ++
          ("Expected Result:\n" ++ collapseWs R ++ "\n\n") ++
          jsJoinNl (fieldLines row)).data
          = (collapseWs S).data ++ '\n' :: ('\n' :: ("Expected Result:".data ++
            '\n' :: ((collapseWs R).data ++ '\n' :: ('\n' ::
              (jsJoinNl (fieldLines row)).data)))) := by
        simp [stringDataAppend]
      have hD : splitOnChar '\n' (jsJoinNl (fieldLines row)).data
          = (fieldLines row).map String.data := by
        show splitOnChar '\n' (joinWith ['\n'] ((fieldLines row).map String.data)) = _
        exact splitOnChar_joinWith '\n' _ (by simpa using hFL) hFLn
      have hlines : jsSplitLines (collapseWs S ++ "\n\n" ++
          ("Expected Result:\n" ++ collapseWs R ++ "\n\n") ++
          jsJoinNl (fieldLines row))
          = (splitOnChar '\n' (collapseWs S).data).map String.mk ++ [""] ++
            ["Expected Result:"] ++
            (splitOnChar '\n' (collapseWs R).data).map String.mk ++ [""] ++
            fieldLines row := by
        unfold jsSplitLines
        rw [hdata, splitOnChar_append, hcons, splitOnChar_append, hsplitER,
          splitOnChar_append, hcons, hD]
        simp [hmk0, hmarker, splitOnChar]
        rw [show (String.mk ∘ String.data) = fun s : String => s from
          funext (fun s => rfl), List.map_id']
      unfold parseContent
      rw [hlines]
      simp only [processLines_append]
      rw [processLines_step_none _ initState rfl hnmS]
      rw [processLines_step_none [""]
        ⟨LineType.step,
          initState.stepLines ++ List.map String.mk (splitOnChar '\n' (collapseWs S).data),
          initState.resultLines, initState.contentFields⟩ rfl hnm1]
      rw [hmarkerRun, processLine_marker]
      rw [processLines_result_none _ _ rfl hnmR]
      rw [processLines_result_none [""] _ rfl hnm1]
      rw [fieldLines_eq, processLines_fields _ _ hfieldsOK]
      refine ⟨?_, ?_, ?_⟩
      · show jsTrim (jsJoinNl (([] : List String) ++
          (splitOnChar '\n' (collapseWs S).data).map String.mk ++ [""])) = _
        rw [List.nil_append]
        exact trim_join_steps_one _
      · show jsTrim (jsJoinNl ((([] : List String) ++ [""]) ++
          (splitOnChar '\n' (collapseWs R).data).map String.mk ++ [""])) = _
        rw [show (([] : List String) ++ [""]) ++
            (splitOnChar '\n' (collapseWs R).data).map String.mk ++ [""]
            = "" :: ((splitOnChar '\n' (collapseWs R).data).map String.mk ++ [""])
          from by simp]
        exact trim_join_results_one _
      · simpa using hfold

theorem filterMap_congr_mem {α β : Type} (l : List α) (f g : α → Option β)
    (h : ∀ x ∈ l, f x = g x) : l.filterMap f = l.filterMap g := by
  induction l with
  | nil => rfl
  | cons a as ih =>
    rw [List.filterMap_cons, List.filterMap_cons, h a (by simp),
      ih (fun x hx => h x (by simp [hx]))]

theorem objGet_persistedAux (row : Obj) (fs : List String) (hnd : fs.Nodup)
    (f : String) (hf : f ∈ fs) :
    objGet (fs.filterMap (fun g => (objGet row g).map (fun v => (g, v)))) f
      = objGet row f := by
  induction fs with
  | nil => cases hf
  | cons g rest ih =>
    rw [List.nodup_cons] at hnd
    rw [List.filterMap_cons]
    by_cases hfg : g = f
    · subst hfg
      cases hv : objGet row g with
      | none =>
        show objGet (rest.filterMap
          (fun g => (objGet row g).map (fun v => (g, v)))) g = none
        apply objGet_none_of_forall
        intro p hp
        rw [List.mem_filterMap] at hp
        obtain ⟨x, hx, hxe⟩ := hp
        rw [Option.map_eq_some'] at hxe
        obtain ⟨v, _, he⟩ := hxe
        cases he
        intro he2
        have he3 : x = g := he2
        rw [he3] at hx
        exact hnd.1 hx
      | some v =>
        show objGet ((g, v) :: rest.filterMap
          (fun g => (objGet row g).map (fun v => (g, v)))) g = some v
        simp [objGet]
    · have hf2 : f ∈ rest := by
        rcases List.mem_cons.mp hf with h | h
        · exact absurd h.symm hfg
        · exact h
      cases hv : objGet row g with
      | none =>
        show objGet (rest.filterMap
          (fun g => (objGet row g).map (fun v => (g, v)))) f = objGet row f
        exact ih hnd.2 hf2
      | some v =>
        show objGet ((g, v) :: rest.filterMap
          (fun g => (objGet row g).map (fun v => (g, v)))) f = objGet row f
        simp only [objGet, if_neg hfg]
        exact ih hnd.2 hf2

theorem objGet_base_persisted (f : String) (hf : f ∈ persistedTrFields)
    (t s h r : String) :
    objGet [("Title", t), ("Steps", s), ("Section", h), ("Expected Result", r)] f
      = none := by
  fin_cases hf <;> rfl

theorem testFor_eval (row : Obj) (T sec S R : String)
    (hT : objGet row "Title" = some T)
    (hsec : resolveSection row = some sec)
    (hS : objGet row "Steps" = some S)
    (hR : objGet row "Expected Result" = some R) :
    testFor row = some (safePath sec T ++ testFileSuffix,
      collapseWs S ++ "\n\n" ++
      (if R = "" then "" else "Expected Result:\n" ++ collapseWs R ++ "\n\n") ++
      jsJoinNl (fieldLines row)) := by
  unfold testFor
  rw [hsec, hT, hS, hR]
  have h0 : collapseWs "" = "" := rfl
  by_cases hS0 : S = ""
  · by_cases hR0 : R = ""
    · subst hS0; subst hR0
      simp [truthy, jsStr, h0]
    · subst hS0
      have hRb : (R != "") = true := bne_iff_ne.mpr hR0
      have hRc : collapseWs R ≠ "" := collapseWs_ne_empty hR0
      simp [truthy, jsStr, hRb, hR0, hRc, h0, String.append_assoc]
  · have hSb : (S != "") = true := bne_iff_ne.mpr hS0
    by_cases hR0 : R = ""
    · subst hR0
      simp [truthy, jsStr, hSb]
    · have hRb : (R != "") = true := bne_iff_ne.mpr hR0
      have hRc : collapseWs R ≠ "" := collapseWs_ne_empty hR0
      simp [truthy, jsStr, hSb, hRb, hR0, hRc, String.append_assoc]

theorem persistedOf_congr (a b : Obj)
    (h : ∀ f ∈ persistedTrFields, objGet a f = objGet b f) :
    persistedOf a = persistedOf b := by
  unfold persistedOf
  apply filterMap_congr_mem
  intro f hf
  rw [h f hf]

/-- C1 (amended): for a row with a nonempty Title of at most 200
sanitizer-fixed characters, a resolvable Section, Steps and Expected
Result columns whose collapsed lines match no field pattern, and
newline-free persisted values, serializing with `testFor` and re-parsing
with `trRowFor` recovers the Title exactly, the Steps and Expected Result
modulo horizontal-whitespace collapsing and trimming, and exactly the
persisted restriction of the original row. -/
theorem roundtrip_stable (row : Obj) (T sec S R : String)
    (hT : objGet row "Title" = some T) (hTne : T ≠ "")
    (hTsafe : ∀ c ∈ T.data, safeTitleChar c) (hTlen : T.data.length ≤ 200)
    (hsec : resolveSection row = some sec)
    (hS : objGet row "Steps" = some S)
    (hR : objGet row "Expected Result" = some R)
    (hSlines : ∀ l ∈ splitOnChar '\n' (collapseWs S).data,
      findMatch trFields l = none)
    (hRlines : ∀ l ∈ splitOnChar '\n' (collapseWs R).data,
      findMatch trFields l = none)
    (hvals : ∀ p ∈ persistedOf row, '\n' ∉ p.2.data) :
    ∃ path content, testFor row = some (path, content) ∧
      objGet (trRowFor ⟨path, content, none, none⟩ false) "Title" = some T ∧
      objGet (trRowFor ⟨path, content, none, none⟩ false) "Steps"
        = some (jsTrim (collapseWs S)) ∧
      objGet (trRowFor ⟨path, content, none, none⟩ false) "Expected Result"
        = some (jsTrim (collapseWs R)) ∧
      persistedOf (trRowFor ⟨path, content, none, none⟩ false)
        = persistedOf row := by
  obtain ⟨h1, h2, h3⟩ := parseContent_roundtrip S R row hSlines hRlines hvals
  have hrow : trRowFor ⟨safePath sec T ++ testFileSuffix,
      collapseWs S ++ "\n\n" ++
      (if R = "" then "" else "Expected Result:\n" ++ collapseWs R ++ "\n\n") ++
      jsJoinNl (fieldLines row), none, none⟩ false
      = jsAssign [("Title", T),
          ("Steps", jsTrim (collapseWs S)),
          ("Section", pathToTrSection (safePath sec T ++ testFileSuffix)),
          ("Expected Result", jsTrim (collapseWs R))] (persistedOf row) := by
    have e : trRowFor ⟨safePath sec T ++ testFileSuffix,
        collapseWs S ++ "\n\n" ++
        (if R = "" then "" else "Expected Result:\n" ++ collapseWs R ++ "\n\n") ++
        jsJoinNl (fieldLines row), none, none⟩ false
        = jsAssign [("Title",
            stripTestSuffix (pathBasename (safePath sec T ++ testFileSuffix))),
            ("Steps", jsTrim (jsJoinNl (parseContent (collapseWs S ++ "\n\n" ++
              (if R = "" then ""
               else "Expected Result:\n" ++ collapseWs R ++ "\n\n") ++
              jsJoinNl (fieldLines row))).stepLines)),
            ("Section", pathToTrSection (safePath sec T ++ testFileSuffix)),
            ("Expected Result", jsTrim (jsJoinNl (parseContent (collapseWs S ++
              "\n\n" ++
              (if R = "" then ""
               else "Expected Result:\n" ++ collapseWs R ++ "\n\n") ++
              jsJoinNl (fieldLines row))).resultLines))]
          ((parseContent (collapseWs S ++ "\n\n" ++
            (if R = "" then ""
             else "Expected Result:\n" ++ collapseWs R ++ "\n\n") ++
            jsJoinNl (fieldLines row))).contentFields) := rfl
    rw [e, h1, h2, h3, safePath_title sec T hTne hTsafe hTlen]
  have hno : ∀ k ∈ (["Title", "Steps", "Expected Result"] : List String),
      objGet (persistedOf row) k = none := by
    intro k hk
    apply objGet_none_of_forall
    intro p hp
    have h4 := persisted_not_special p.1 (persistedOf_sub row p hp).1
    fin_cases hk
    · exact h4.2.2.1
    · exact h4.1
    · exact h4.2.1
  refine ⟨safePath sec T ++ testFileSuffix,
    collapseWs S ++ "\n\n" ++
    (if R = "" then "" else "Expected Result:\n" ++ collapseWs R ++ "\n\n") ++
    jsJoinNl (fieldLines row),
    testFor_eval row T sec S R hT hsec hS hR, ?_, ?_, ?_, ?_⟩
  · rw [hrow, objGet_jsAssign_none _ _ _ (hno "Title" (by simp))]
    simp [objGet]
  · rw [hrow, objGet_jsAssign_none _ _ _ (hno "Steps" (by simp))]
    simp [objGet]
  · rw [hrow, objGet_jsAssign_none _ _ _ (hno "Expected Result" (by simp))]
    simp [objGet]
  · rw [hrow]
    apply persistedOf_congr
    intro f hf
    have hpget : objGet (persistedOf row) f = objGet row f :=
      objGet_persistedAux row persistedTrFields (by decide) f hf
    cases hv : objGet row f with
    | some v =>
      rw [objGet_jsAssign_some _ _ f v (persistedOf_pairwise row)
        (hpget.trans hv)]
    | none =>
      rw [objGet_jsAssign_none _ _ f (hpget.trans hv),
        objGet_base_persisted f hf]

/-- C1: counterexample to the literal claim.  A title with a space and
steps with a leading newline survive serialization unchanged, but the
re-parsed row carries the sanitized title and the trimmed steps, neither
equal to the original even modulo horizontal-whitespace collapsing. -/
theorem roundtrip_unstable :
    testFor [("Title", "My Test"), ("Section", ""), ("Steps", "\nA"),
             ("Expected Result", "R")]
      = some ("My_Test.test.txt", "\nA\n\nExpected Result:\nR\n\n") ∧
    objGet (trRowFor ⟨"My_Test.test.txt", "\nA\n\nExpected Result:\nR\n\n",
        none, none⟩ false) "Title" = some "My_Test" ∧
    "My_Test" ≠ "My Test" ∧
    objGet (trRowFor ⟨"My_Test.test.txt", "\nA\n\nExpected Result:\nR\n\n",
        none, none⟩ false) "Steps" = some "A" ∧
    "A" ≠ collapseWs "\nA" := by
  decide

/-- Closed instance of the round-trip theorem on a concrete row. -/
theorem roundtrip_stable_witness :
    ∃ path content,
      testFor [("Title", "MyTest"), ("Section", "samples"),
               ("Steps", "Do  the thing"), ("Expected Result", "It works"),
               ("Priority", "High"), ("ID", "42")] = some (path, content) ∧
      objGet (trRowFor ⟨path, content, none, none⟩ false) "Title"
        = some "MyTest" ∧
      objGet (trRowFor ⟨path, content, none, none⟩ false) "Steps"
        = some (jsTrim (collapseWs "Do  the thing")) ∧
      objGet (trRowFor ⟨path, content, none, none⟩ false) "Expected Result"
        = some (jsTrim (collapseWs "It works")) ∧
      persistedOf (trRowFor ⟨path, content, none, none⟩ false)
        = persistedOf [("Title", "MyTest"), ("Section", "samples"),
            ("Steps", "Do  the thing"), ("Expected Result", "It works"),
            ("Priority", "High"), ("ID", "42")] :=
  roundtrip_stable _ "MyTest" "samples" "Do  the thing" "It works"
    (by decide) (by decide) (by decide) (by decide) (by decide)
    (by decide) (by decide) (by decide) (by decide) (by decide)
